import Mathlib

/-!
Verification development for the JPS (jump-point search) path-finding core
in `AStar.c` (functions `astar_compute`, `astar_unopt_compute` and their
helpers).  The embedding below translates each C function into a Lean
function over unbounded integers.

Conventions of the embedding:

* C `int` / `short` values become `Int` (the program never relies on
  machine-width overflow).
* All costs in the C code are `double`s whose exact values lie in
  ℤ[√2] = {a + b·√2}: the heuristic is an integer Chebyshev distance, and
  the precise distance between two ray-aligned cells is either an integer
  or an integer multiple of √2.  We represent costs exactly by the pair
  `Rt2` of their coordinates over (1, √2), with comparison decided by
  exact integer arithmetic.  `Rt2.val` interprets a pair in ℝ.
* C's `%` and `/` on `int` truncate toward zero: they are `Int.tmod` and
  `Int.tdiv`.
* The C assignment `int oldGScore = gScores[newNode];` converts a
  `double` to `int`, truncating toward zero; it is embedded by
  `Rt2.truncI`.
* The grid `const short *grid` is a total function `Nat → Bool`
  (nonzero = walkable); every C read `grid[i]` is guarded by a
  `contained` check, so only indices in `[0, W·H)` are ever read.
-/

namespace AStarJPS

/-- Exact representation of the real number `a + b·√2`.  Every cost value
computed by `AStar.c` is of this form. -/
structure Rt2 where
  a : Int
  b : Int
deriving DecidableEq, Repr

/-- Addition of `a + b√2` representations. -/
def Rt2.add (x y : Rt2) : Rt2 := ⟨x.a + y.a, x.b + y.b⟩

/-- Subtraction of `a + b√2` representations. -/
def Rt2.sub (x y : Rt2) : Rt2 := ⟨x.a - y.a, x.b - y.b⟩

instance : Add Rt2 := ⟨Rt2.add⟩

instance : Sub Rt2 := ⟨Rt2.sub⟩

/-- The zero cost. -/
def Rt2.zero : Rt2 := ⟨0, 0⟩

/-- Embedding of an integer as a cost. -/
def Rt2.ofInt (n : Int) : Rt2 := ⟨n, 0⟩

/-- Decides `0 ≤ a + b·√2` by exact integer arithmetic (comparing squares
in the mixed-sign cases). -/
def Rt2.nonnegB (x : Rt2) : Bool :=
  if 0 ≤ x.a then
    if 0 ≤ x.b then true else decide (2 * x.b ^ 2 ≤ x.a ^ 2)
  else
    if 0 ≤ x.b then decide (x.a ^ 2 ≤ 2 * x.b ^ 2) else false

/-- Decides `x ≤ y` for exact `a + b√2` costs. -/
def Rt2.leB (x y : Rt2) : Bool := Rt2.nonnegB (y - x)

/-- Decides `x < y` for exact `a + b√2` costs. -/
def Rt2.ltB (x y : Rt2) : Bool := ! Rt2.leB y x

/-- The real value `a + b·√2` represented by a cost. -/
noncomputable def Rt2.val (x : Rt2) : ℝ := (x.a : ℝ) + (x.b : ℝ) * Real.sqrt 2

/-- Digit-by-digit integer square root with explicit fuel (structural, so
it reduces inside the kernel, unlike `Nat.sqrt`). -/
def natSqrtAux : Nat → Nat → Nat
  | 0, _ => 0
  | fuel + 1, n =>
    if n = 0 then 0
    else
      let r := 2 * natSqrtAux fuel (n / 4)
      if (r + 1) * (r + 1) ≤ n then r + 1 else r

/-- The integer square root `⌊√n⌋`. -/
def natSqrt (n : Nat) : Nat := natSqrtAux n n

theorem natSqrtAux_spec : ∀ fuel n : Nat, n ≤ fuel →
    natSqrtAux fuel n * natSqrtAux fuel n ≤ n ∧
      n < (natSqrtAux fuel n + 1) * (natSqrtAux fuel n + 1) := by
  intro fuel
  induction fuel with
  | zero => intro n hn; interval_cases n; simp [natSqrtAux]
  | succ f IH =>
    intro n hn
    by_cases h0 : n = 0
    · subst h0; simp [natSqrtAux]
    · have h4 : n / 4 ≤ f := by omega
      obtain ⟨ih1, ih2⟩ := IH (n / 4) h4
      have hd : 4 * (n / 4) ≤ n ∧ n < 4 * (n / 4) + 4 := by omega
      simp only [natSqrtAux, h0, if_false]
      set a := natSqrtAux f (n / 4) with ha
      have e1 : (2 * a + 1) * (2 * a + 1) = 4 * (a * a) + 4 * a + 1 := by ring
      have e2 : (2 * a + 2) * (2 * a + 2) = 4 * ((a + 1) * (a + 1)) := by ring
      have e3 : (a + 1) * (a + 1) = a * a + 2 * a + 1 := by ring
      have e4 : (2 * a) * (2 * a) = 4 * (a * a) := by ring
      by_cases hb : (2 * a + 1) * (2 * a + 1) ≤ n
      · rw [if_pos hb]
        constructor
        · omega
        · have : (2 * a + 1 + 1) * (2 * a + 1 + 1) = (2 * a + 2) * (2 * a + 2) := by ring
          omega
      · rw [if_neg hb]
        constructor
        · omega
        · omega

theorem natSqrt_spec (n : Nat) :
    natSqrt n * natSqrt n ≤ n ∧ n < (natSqrt n + 1) * (natSqrt n + 1) :=
  natSqrtAux_spec n n le_rfl

theorem natSqrt_sq (k : Nat) : natSqrt (k * k) = k := by
  obtain ⟨h1, h2⟩ := natSqrt_spec (k * k)
  set r := natSqrt (k * k) with hr
  rcases lt_trichotomy r k with h | h | h
  · exfalso
    have : (r + 1) * (r + 1) ≤ k * k := Nat.mul_le_mul (by omega) (by omega)
    omega
  · exact h
  · exfalso
    have : k * k < r * r := Nat.mul_lt_mul_of_lt_of_le h (le_of_lt h) (by omega)
    omega

/-- Floor of `b·√2` as an integer (`b√2` is irrational unless `b = 0`). -/
def floorBsqrt2 (b : Int) : Int :=
  if 0 ≤ b then (natSqrt (2 * b.natAbs ^ 2) : Int)
  else -((natSqrt (2 * b.natAbs ^ 2) : Int) + 1)

/-- Floor of `a + b·√2` as an integer. -/
def Rt2.floorI (x : Rt2) : Int := x.a + floorBsqrt2 x.b

/-- C's `double`-to-`int` conversion (truncation toward zero) applied to an
exact cost; this embeds the conversion in `int oldGScore = gScores[newNode];`
(`AStar.c:393`). -/
def Rt2.truncI (x : Rt2) : Int :=
  if Rt2.nonnegB x then Rt2.floorI x else -(Rt2.floorI ⟨-x.a, -x.b⟩)

/-- The exact value of `√n` as an element of ℤ[√2], for the arguments the
program produces.  `preciseDistance` only takes the square root of
`Δx² + Δy²` for two cells on a common ray, where the value is `2·k²`
(pure diagonal) or `k²` (one axis); both cases are represented exactly.
Other (unreachable) arguments fall through to `⟨0, 0⟩`. -/
def sqrtAsRt2 (n : Nat) : Rt2 :=
  if 2 * (natSqrt (n / 2)) ^ 2 = n then ⟨0, (natSqrt (n / 2) : Int)⟩
  else if (natSqrt n) ^ 2 = n then ⟨(natSqrt n : Int), 0⟩
  else ⟨0, 0⟩

/-- A coordinate pair, `struct coord` in `AStar.c`. -/
structure Coord where
  x : Int
  y : Int
deriving DecidableEq, Repr

/-- The map grid: linear index to walkability. -/
abbrev Grid := Nat → Bool

/-- A concrete grid given by a row-major list of walkability flags
(cells outside the list are blocked). -/
def gridOfList (l : List Bool) : Grid := fun i => l.getD i false

/-- `getIndex` of `AStar.c`: linear index of a coordinate. -/
def getIndex (bounds c : Coord) : Int := c.x + c.y * bounds.x

/-- `astar_getIndexByWidth` of `AStar.c`. -/
def astar_getIndexByWidth (width x y : Int) : Int := x + y * width

/-- `getCoord` of `AStar.c`: decode a linear index (C `%` and `/` truncate
toward zero, hence `Int.tmod` / `Int.tdiv`). -/
def getCoord (bounds : Coord) (c : Int) : Coord := ⟨c.tmod bounds.x, c.tdiv bounds.x⟩

/-- `astar_getCoordByWidth` of `AStar.c` (returned as a pair). -/
def astar_getCoordByWidth (width node : Int) : Int × Int :=
  (node.tmod width, node.tdiv width)

/-- `contained` of `AStar.c`: is the coordinate within the map bounds? -/
def contained (bounds c : Coord) : Bool :=
  decide (0 ≤ c.x ∧ 0 ≤ c.y ∧ c.x < bounds.x ∧ c.y < bounds.y)

/-- `isEnterable` of `AStar.c`: within bounds and walkable.  When
`contained` holds the linear index is nonnegative, so the `Int.toNat`
reads the same cell the C code reads. -/
def isEnterable (grid : Grid) (bounds coord : Coord) : Bool :=
  contained bounds coord && grid (getIndex bounds coord).toNat

/-- `directionIsDiagonal` of `AStar.c` (odd directions are diagonal). -/
def directionIsDiagonal (dir : Int) : Bool := decide (dir.tmod 2 ≠ 0)

/-- The coordinate offset of a direction: the nine cases of the `switch`
in `adjustInDirection` (`AStar.c:96`).  C computes `(dir + 65536) % 8`
with truncating `%`; the `switch` has no case for a negative result
(which needs `dir < -65536`, far outside the range the program uses), so
that unreachable fall-through is modelled as a zero offset. -/
def dirDelta (dir : Int) : Int × Int :=
  match (dir + 65536).tmod 8 with
  | 0 => (0, -1)
  | 1 => (1, -1)
  | 2 => (1, 0)
  | 3 => (1, 1)
  | 4 => (0, 1)
  | 5 => (-1, 1)
  | 6 => (-1, 0)
  | 7 => (-1, -1)
  | _ => (0, 0)

/-- `adjustInDirection` of `AStar.c`: the coordinate one tile in the
given direction. -/
def adjustInDirection (c : Coord) (dir : Int) : Coord :=
  ⟨c.x + (dirDelta dir).1, c.y + (dirDelta dir).2⟩

/-- `implies` of `AStar.c`: the logical implication operator. -/
def implies (a b : Bool) : Bool := if a then b else true

/-- `hasForcedNeighbours` of `AStar.c`; `ent n` is the `ENTERABLE(n)`
macro. -/
def hasForcedNeighbours (grid : Grid) (bounds coord : Coord) (dir : Int) : Bool :=
  let ent : Int → Bool := fun n =>
    isEnterable grid bounds (adjustInDirection coord (dir + n))
  if directionIsDiagonal dir then
    (! implies (ent (-2)) (ent (-3))) || (! implies (ent 2) (ent 3))
  else
    (! implies (ent (-1)) (ent (-2))) || (! implies (ent 1) (ent 2))

/-- `chebyshevDistance` of `AStar.c` (an integer-valued `double`). -/
def chebyshevDistance (s e : Coord) : Rt2 :=
  ⟨max |s.x - e.x| |s.y - e.y|, 0⟩

/-- `estimateDistance` of `AStar.c`: the Chebyshev heuristic. -/
def estimateDistance (s e : Coord) : Rt2 := chebyshevDistance s e

/-- `preciseDistance` of `AStar.c`: Euclidean distance when both
coordinates differ, otherwise Manhattan distance.  The square root is
taken exactly in ℤ[√2] via `sqrtAsRt2`; see its docstring. -/
def preciseDistance (s e : Coord) : Rt2 :=
  if s.x - e.x ≠ 0 ∧ s.y - e.y ≠ 0 then
    sqrtAsRt2 (((s.x - e.x) ^ 2 + (s.y - e.y) ^ 2).toNat)
  else
    ⟨|s.x - e.x| + |s.y - e.y|, 0⟩

/-- Number of steps one can take from `c` in direction `dir` before
leaving the bounds; the termination measure of `jump`'s straight-line
recursion. -/
def rayLen (bounds : Coord) (dir : Int) (c : Coord) : Nat :=
  let d := dirDelta dir
  let cx : Int := if 0 < d.1 then bounds.x - 1 - c.x else if d.1 < 0 then c.x else bounds.x + bounds.y
  let cy : Int := if 0 < d.2 then bounds.y - 1 - c.y else if d.2 < 0 then c.y else bounds.x + bounds.y
  (min cx cy).toNat

theorem contained_iff (bounds c : Coord) :
    contained bounds c = true ↔ 0 ≤ c.x ∧ 0 ≤ c.y ∧ c.x < bounds.x ∧ c.y < bounds.y := by
  simp [contained]

theorem getCoord_getIndex (bounds c : Coord) (h : contained bounds c = true) :
    getCoord bounds (getIndex bounds c) = c := by
  rw [contained_iff] at h
  obtain ⟨h1, h2, h3, h4⟩ := h
  have hW : 0 < bounds.x := lt_of_le_of_lt h1 h3
  have hnn : 0 ≤ c.x + c.y * bounds.x := by positivity
  unfold getCoord getIndex
  rw [Int.tmod_eq_emod hnn (le_of_lt hW), Int.tdiv_eq_ediv hnn (le_of_lt hW)]
  rw [Int.add_mul_emod_self, Int.add_mul_ediv_right _ _ (ne_of_gt hW)]
  rw [Int.emod_eq_of_lt h1 h3, Int.ediv_eq_zero_of_lt h1 h3]
  simp

theorem dirDelta_cases (dir : Int) :
    dirDelta dir = (0, -1) ∨ dirDelta dir = (1, -1) ∨ dirDelta dir = (1, 0) ∨
    dirDelta dir = (1, 1) ∨ dirDelta dir = (0, 1) ∨ dirDelta dir = (-1, 1) ∨
    dirDelta dir = (-1, 0) ∨ dirDelta dir = (-1, -1) ∨ dirDelta dir = (0, 0) := by
  unfold dirDelta
  split <;> simp

theorem rayLen_lt (bounds : Coord) (dir : Int) (c : Coord)
    (hd : dirDelta dir ≠ (0, 0))
    (hcont : contained bounds (adjustInDirection c dir) = true) :
    rayLen bounds dir (adjustInDirection c dir) < rayLen bounds dir c := by
  rw [contained_iff] at hcont
  unfold adjustInDirection at hcont
  unfold rayLen adjustInDirection
  rcases dirDelta_cases dir with h | h | h | h | h | h | h | h | h <;>
    [skip; skip; skip; skip; skip; skip; skip; skip; exact absurd h hd] <;>
    rw [h] at hcont ⊢ <;>
      simp only [] at hcont ⊢ <;>
        norm_num at hcont ⊢ <;>
          omega



theorem tmod_two_not_zero_sub_one {d : Int} (h : d.tmod 2 ≠ 0) : (d - 1).tmod 2 = 0 := by
  have h2 : ¬ (2 : Int) ∣ d := fun hd => h (Int.tmod_eq_zero_of_dvd hd)
  exact Int.tmod_eq_zero_of_dvd (by omega)

theorem tmod_two_not_zero_add_one {d : Int} (h : d.tmod 2 ≠ 0) : (d + 1).tmod 2 = 0 := by
  have h2 : ¬ (2 : Int) ∣ d := fun hd => h (Int.tmod_eq_zero_of_dvd hd)
  exact Int.tmod_eq_zero_of_dvd (by omega)

/-- The recursion of `jump` in `AStar.c`, made structural by a fuel
counter so that it evaluates inside the kernel; `astar_compute` and the
wrapper `jump` below supply fuel that is proved sufficient
(`jumpFuel_congr`), so the fuel-exhaustion branch (returning `-1`) is
never taken for any direction on which the C recursion terminates. -/
def jumpFuel (grid : Grid) (bounds : Coord) (goal : Int) : Nat → Int → Int → Int
  | 0, _, _ => -1
  | fuel + 1, dir, start =>
    let c := adjustInDirection (getCoord bounds start) dir
    let node := getIndex bounds c
    if isEnterable grid bounds c then
      if node = goal then node
      else if hasForcedNeighbours grid bounds c dir then node
      else if directionIsDiagonal dir then
        if 0 ≤ jumpFuel grid bounds goal fuel (dir - 1) node then node
        else if 0 ≤ jumpFuel grid bounds goal fuel (dir + 1) node then node
        else jumpFuel grid bounds goal fuel dir node
      else jumpFuel grid bounds goal fuel dir node
    else -1

/-- `jump` of `AStar.c`: scan from `start` one step at a time in direction
`dir`, returning the first jump point (or the goal), or `-1` when the ray
hits a wall or the map edge.  The supplied fuel dominates the depth of
the C recursion (proved in `jump_spec_eq` below via `jumpFuel_congr`). -/
def jump (grid : Grid) (bounds : Coord) (goal dir start : Int) : Int :=
  jumpFuel grid bounds goal (2 * (bounds.x.toNat + bounds.y.toNat) + 6) dir start
theorem dirDelta_ne_zero {dir : Int} (h : 0 ≤ dir) : dirDelta dir ≠ (0, 0) := by
  have h0 : 0 ≤ (dir + 65536).tmod 8 := Int.tmod_nonneg _ (by omega)
  have h8 : (dir + 65536).tmod 8 < 8 := Int.tmod_lt_of_pos _ (by norm_num)
  have : (dir + 65536).tmod 8 = 0 ∨ (dir + 65536).tmod 8 = 1 ∨ (dir + 65536).tmod 8 = 2 ∨
      (dir + 65536).tmod 8 = 3 ∨ (dir + 65536).tmod 8 = 4 ∨ (dir + 65536).tmod 8 = 5 ∨
      (dir + 65536).tmod 8 = 6 ∨ (dir + 65536).tmod 8 = 7 := by omega
  unfold dirDelta
  rcases this with hm | hm | hm | hm | hm | hm | hm | hm <;> rw [hm] <;> simp

theorem rayLen_le (bounds : Coord) (dir : Int) (c : Coord)
    (hc : contained bounds c = true) :
    rayLen bounds dir c ≤ bounds.x.toNat + bounds.y.toNat := by
  rw [contained_iff] at hc
  unfold rayLen
  rcases dirDelta_cases dir with h | h | h | h | h | h | h | h | h <;>
    rw [h] <;> simp only [] <;> norm_num <;> omega

/-- Fuel sufficient for `jumpFuel` to run the full C recursion from
`start` in direction `dir`: the remaining ray length, plus (for a
diagonal scan) enough for a full straight lookahead at each step. -/
def jumpDepth (bounds : Coord) (dir start : Int) : Nat :=
  rayLen bounds dir (getCoord bounds start) +
    (if directionIsDiagonal dir then bounds.x.toNat + bounds.y.toNat + 2 else 0) + 1

theorem jumpFuel_congr (grid : Grid) (bounds : Coord) (goal : Int) :
    ∀ f1 f2 dir start : _, 0 ≤ dir →
      jumpDepth bounds dir start ≤ f1 → jumpDepth bounds dir start ≤ f2 →
      jumpFuel grid bounds goal f1 dir start = jumpFuel grid bounds goal f2 dir start := by
  intro f1
  induction f1 using Nat.strong_induction_on with
  | _ f1 IH =>
    intro f2 dir start hdir h1 h2
    have hd1 : 1 ≤ jumpDepth bounds dir start := by unfold jumpDepth; omega
    obtain ⟨a, rfl⟩ : ∃ a, f1 = a + 1 := ⟨f1 - 1, by omega⟩
    obtain ⟨b, rfl⟩ : ∃ b, f2 = b + 1 := ⟨f2 - 1, by omega⟩
    by_cases henter :
        isEnterable grid bounds (adjustInDirection (getCoord bounds start) dir) = true
    case neg =>
      simp only [jumpFuel, henter]
      simp [Bool.not_eq_true] at henter
      simp [henter]
    case pos =>
      have hcont : contained bounds (adjustInDirection (getCoord bounds start) dir) = true := by
        simp only [isEnterable, Bool.and_eq_true] at henter
        exact henter.1
      have hround :
          getCoord bounds (getIndex bounds (adjustInDirection (getCoord bounds start) dir)) =
            adjustInDirection (getCoord bounds start) dir :=
        getCoord_getIndex bounds _ hcont
      have hlt : rayLen bounds dir (adjustInDirection (getCoord bounds start) dir) <
          rayLen bounds dir (getCoord bounds start) :=
        rayLen_lt bounds dir (getCoord bounds start) (dirDelta_ne_zero hdir) hcont
      have hsame : jumpDepth bounds dir
          (getIndex bounds (adjustInDirection (getCoord bounds start) dir)) <
          jumpDepth bounds dir start := by
        unfold jumpDepth
        rw [hround]
        omega
      have esame : jumpFuel grid bounds goal a dir
            (getIndex bounds (adjustInDirection (getCoord bounds start) dir)) =
          jumpFuel grid bounds goal b dir
            (getIndex bounds (adjustInDirection (getCoord bounds start) dir)) :=
        IH a (by omega) b dir _ hdir (by omega) (by omega)
      by_cases hdiag : directionIsDiagonal dir = true
      case neg =>
        simp only [jumpFuel, henter, hdiag, if_true, Bool.false_eq_true, if_false, esame]
      case pos =>
        have hodd : dir.tmod 2 ≠ 0 := by
          simpa [directionIsDiagonal] using hdiag
        have hdir1 : (0 : Int) ≤ dir - 1 := by
          rcases lt_or_le 0 dir with h | h
          · omega
          · exfalso
            apply hodd
            have : dir = 0 := le_antisymm h hdir
            simp [this]
        have hB : rayLen bounds dir (getCoord bounds start) +
            (bounds.x.toNat + bounds.y.toNat + 2) + 1 ≤ a + 1 := by
          have : jumpDepth bounds dir start =
              rayLen bounds dir (getCoord bounds start) +
                (bounds.x.toNat + bounds.y.toNat + 2) + 1 := by
            unfold jumpDepth
            rw [if_pos hdiag]
          omega
        have hB2 : rayLen bounds dir (getCoord bounds start) +
            (bounds.x.toNat + bounds.y.toNat + 2) + 1 ≤ b + 1 := by
          have : jumpDepth bounds dir start =
              rayLen bounds dir (getCoord bounds start) +
                (bounds.x.toNat + bounds.y.toNat + 2) + 1 := by
            unfold jumpDepth
            rw [if_pos hdiag]
          omega
        have hd1le : jumpDepth bounds (dir - 1)
            (getIndex bounds (adjustInDirection (getCoord bounds start) dir)) ≤
              bounds.x.toNat + bounds.y.toNat + 1 := by
          unfold jumpDepth
          rw [hround]
          have := rayLen_le bounds (dir - 1) _ hcont
          simp [directionIsDiagonal, tmod_two_not_zero_sub_one hodd]
          omega
        have hd2le : jumpDepth bounds (dir + 1)
            (getIndex bounds (adjustInDirection (getCoord bounds start) dir)) ≤
              bounds.x.toNat + bounds.y.toNat + 1 := by
          unfold jumpDepth
          rw [hround]
          have := rayLen_le bounds (dir + 1) _ hcont
          simp [directionIsDiagonal, tmod_two_not_zero_add_one hodd]
          omega
        have e1 : jumpFuel grid bounds goal a (dir - 1)
              (getIndex bounds (adjustInDirection (getCoord bounds start) dir)) =
            jumpFuel grid bounds goal b (dir - 1)
              (getIndex bounds (adjustInDirection (getCoord bounds start) dir)) :=
          IH a (by omega) b (dir - 1) _ hdir1 (by omega) (by omega)
        have e2 : jumpFuel grid bounds goal a (dir + 1)
              (getIndex bounds (adjustInDirection (getCoord bounds start) dir)) =
            jumpFuel grid bounds goal b (dir + 1)
              (getIndex bounds (adjustInDirection (getCoord bounds start) dir)) :=
          IH a (by omega) b (dir + 1) _ (by omega) (by omega) (by omega)
        simp only [jumpFuel, henter, hdiag, if_true, e1, e2, esame]

/-- `directionOfMove` of `AStar.c`: direction of travel from `fr` to `dst`
(`-1` when the two coincide; the C parameters are named `to`, `from`,
which are Lean keywords). -/
def directionOfMove (dst fr : Coord) : Int :=
  if fr.x = dst.x then
    if fr.y = dst.y then -1
    else if fr.y < dst.y then 4
    else 0
  else if fr.x < dst.x then
    if fr.y = dst.y then 2
    else if fr.y < dst.y then 3
    else 1
  else
    if fr.y = dst.y then 6
    else if fr.y < dst.y then 5
    else 7

/-- `directionWeCameFrom` of `AStar.c`. -/
def directionWeCameFrom (bounds : Coord) (node nodeFrom : Int) : Int :=
  if nodeFrom = -1 then -1
  else directionOfMove (getCoord bounds node) (getCoord bounds nodeFrom)

/-- `isOptimalTurn` of `AStar.c`: the JPS natural-neighbour pruning filter
(C's `%` on the nonnegative operands used here is `Int.tmod`). -/
def isOptimalTurn (dir dirFrom : Int) : Bool :=
  if dirFrom = -1 then true
  else if dirFrom = dir then true
  else if directionIsDiagonal dirFrom then
    decide ((dirFrom + 7).tmod 8 = dir) || decide ((dirFrom + 6).tmod 8 = dir) ||
    decide ((dirFrom + 1).tmod 8 = dir) || decide ((dirFrom + 2).tmod 8 = dir)
  else
    decide ((dirFrom + 7).tmod 8 = dir) || decide ((dirFrom + 1).tmod 8 = dir)

/-- `nextNodeInSolution` of `AStar.c`, with the `int *target` in-out
parameter made explicit: returns the advanced node and the new target. -/
def nextNodeInSolution (bounds : Coord) (cameFrom : Int → Int) (target node : Int) :
    Int × Int :=
  let c := getCoord bounds node
  let ct := getCoord bounds target
  let cx := if c.x < ct.x then c.x + 1 else if ct.x < c.x then c.x - 1 else c.x
  let cy := if c.y < ct.y then c.y + 1 else if ct.y < c.y then c.y - 1 else c.y
  let node2 := getIndex bounds ⟨cx, cy⟩
  (node2, if node2 = target then cameFrom target else target)

/-- The `for (;;)` loop of `recordSolution` in `AStar.c`, with an explicit
fuel bound (the C loop's termination is proved separately); `none` means
the fuel ran out.  `acc` accumulates the recorded cells in order. -/
def recordLoop (bounds : Coord) (cameFrom : Int → Int) (begin_ : Int) :
    Nat → Int → Int → List Int → Option (List Int)
  | 0, _, _, _ => none
  | fuel + 1, target, i, acc =>
    let r := nextNodeInSolution bounds cameFrom target i
    let acc2 := acc ++ [r.1]
    if r.1 = begin_ then some acc2
    else recordLoop bounds cameFrom begin_ fuel r.2 r.1 acc2

/-- `recordSolution` of `AStar.c`: the recorded list always ends with
`begin_`, and the final `(*solLen)--` drops that last element, so the
returned path excludes the starting tile. -/
def recordSolution (bounds : Coord) (cameFrom : Int → Int) (rsFuel : Nat)
    (begin_ end_ : Int) : Option (List Int) :=
  (recordLoop bounds cameFrom begin_ rsFuel end_ end_ []).map List.dropLast

/-- Modelled from the spec (§4.2): the indexed priority queue of
`IndexPriorityQueue.c`, whose source is not part of `src/`.  We model the
queue state as the list of resident `(node, priority)` entries in
insertion order; the heap's tie-break is unspecified in the spec, so
`findMin` deterministically picks the leftmost entry of minimal
priority. -/
abbrev Queue : Type := List (Int × Rt2)

/-- Modelled from the spec: `createQueue` — the empty queue. -/
def createQueue : Queue := []

/-- Modelled from the spec: `insert(id, pri)`; requires `id` not already
present. -/
def insert (q : Queue) (value : Int) (pri : Rt2) : Queue := q ++ [(value, pri)]

/-- Modelled from the spec: `find_min()` — an entry of minimal priority
(leftmost among ties). -/
def findMin (q : Queue) : Option (Int × Rt2) :=
  q.foldl (fun best e =>
    match best with
    | none => some e
    | some b => if Rt2.ltB e.2 b.2 then some e else some b) none

/-- Modelled from the spec: `delete_min()` — removes the entry `find_min`
returns. -/
def deleteMin (q : Queue) : Queue :=
  match findMin q with
  | none => q
  | some m => q.erase m

/-- Modelled from the spec: `exists(id)` (named apart from the Lean
keyword). -/
def existsInQueue (q : Queue) (value : Int) : Bool :=
  q.any (fun e => decide (e.1 = value))

/-- Modelled from the spec: `priority_of(id)`, defined when `exists(id)`
(zero: a read of an absent id, which the program never performs). -/
def priorityOf (q : Queue) (value : Int) : Rt2 :=
  match q.find? (fun e => decide (e.1 = value)) with
  | some e => e.2
  | none => Rt2.zero

/-- Modelled from the spec: `change_priority(id, newPri)`. -/
def changePriority (q : Queue) (value : Int) (pri : Rt2) : Queue :=
  q.map (fun e => if e.1 = value then (e.1, pri) else e)

/-- Update one entry of a function-represented array. -/
def upd {α : Type} (f : Int → α) (i : Int) (v : α) : Int → α :=
  fun j => if j = i then v else f j

/-- The per-query scratch state of `astar_compute` (`AStar.c:340`): the
open queue and the `closed`, `gScores` and `cameFrom` arrays.  The C
arrays `gScores` and `cameFrom` are uninitialised except at `start`; the
program never reads an entry before writing it, so the defaults chosen
by the embedding are immaterial. -/
structure SearchState where
  openQ : Queue
  closed : Int → Bool
  gScores : Int → Rt2
  cameFrom : Int → Int

/-- The list of the eight direction numbers, `for (int i = 0; i < 8; i++)`. -/
def dirRange : List Int := [0, 1, 2, 3, 4, 5, 6, 7]

/-- The body of the `for` loop over directions in `astar_compute`
(`AStar.c:366`–`400`), for one direction `i`. -/
def innerBody (grid : Grid) (bounds : Coord) (endIdx : Int) (endCoord : Coord)
    (node : Int) (nodeCoord : Coord) (fromDir : Int) (st : SearchState) (i : Int) :
    SearchState :=
  if ! isOptimalTurn i fromDir then st
  else
    let newNode := jump grid bounds endIdx i node
    let newCoord := getCoord bounds newNode
    if ! contained bounds newCoord then st
    else if st.closed newNode then st
    else if ! existsInQueue st.openQ newNode then
      let g2 := st.gScores node + preciseDistance nodeCoord newCoord
      { openQ := insert st.openQ newNode (g2 + estimateDistance newCoord endCoord),
        closed := st.closed,
        gScores := upd st.gScores newNode g2,
        cameFrom := upd st.cameFrom newNode node }
    else if Rt2.ltB (st.gScores node + preciseDistance nodeCoord newCoord)
        (st.gScores newNode) then
      let oldGScore := Rt2.truncI (st.gScores newNode)
      let g2 := st.gScores node + preciseDistance nodeCoord newCoord
      { openQ := changePriority st.openQ newNode
          ((priorityOf st.openQ newNode - Rt2.ofInt oldGScore) + g2),
        closed := st.closed,
        gScores := upd st.gScores newNode g2,
        cameFrom := upd st.cameFrom newNode node }
    else st

/-- One iteration of the `while (open->size)` loop of `astar_compute`
(`AStar.c:353`–`401`).  `Sum.inl r` means the function returns with
result `r` (`none` = `recordSolution` ran out of fuel, which is proved
impossible); `Sum.inr st` continues the loop. -/
def astarStep (grid : Grid) (bounds : Coord) (startIdx endIdx : Int)
    (endCoord : Coord) (rsFuel : Nat) (st : SearchState) :
    (Option (Option (List Int) × Int)) ⊕ SearchState :=
  match findMin st.openQ with
  | none => Sum.inl (some (none, -1))
  | some e =>
    let node := e.1
    let nodeCoord := getCoord bounds node
    if nodeCoord = endCoord then
      Sum.inl (match recordSolution bounds st.cameFrom rsFuel startIdx node with
        | none => none
        | some l => some (some l, (l.length : Int)))
    else
      let st1 : SearchState :=
        { openQ := deleteMin st.openQ, closed := upd st.closed node true,
          gScores := st.gScores, cameFrom := st.cameFrom }
      let fromDir := directionWeCameFrom bounds node (st.cameFrom node)
      Sum.inr (dirRange.foldl (innerBody grid bounds endIdx endCoord node nodeCoord fromDir) st1)

/-- The `while (open->size)` loop of `astar_compute`, with fuel (`none` =
fuel ran out; proved impossible for the fuel `astar_compute` supplies). -/
def astarLoop (grid : Grid) (bounds : Coord) (startIdx endIdx : Int)
    (endCoord : Coord) (rsFuel : Nat) :
    Nat → SearchState → Option (Option (List Int) × Int)
  | 0, _ => none
  | fuel + 1, st =>
    match astarStep grid bounds startIdx endIdx endCoord rsFuel st with
    | Sum.inl r => r
    | Sum.inr st2 => astarLoop grid bounds startIdx endIdx endCoord rsFuel fuel st2

/-- `astar_compute` of `AStar.c`.  The C function returns a pointer (NULL
for "no path") and writes `*solLength`; the embedding returns
`some (sol, solLength)`, where `sol = none` models the NULL return, and
the outer `none` signals fuel exhaustion of the embedded loops (proved
impossible).  Memory-allocation failure (`OutOfMemory`) is not modelled. -/
def astar_compute (grid : Grid) (boundX boundY start end_ : Int) :
    Option (Option (List Int) × Int) :=
  let bounds : Coord := ⟨boundX, boundY⟩
  let size := bounds.x * bounds.y
  if size ≤ start ∨ start < 0 ∨ size ≤ end_ ∨ end_ < 0 then some (none, -1)
  else
    let startCoord := getCoord bounds start
    let endCoord := getCoord bounds end_
    if ¬ contained bounds startCoord ∨ ¬ contained bounds endCoord then some (none, -1)
    else
      let rsFuel := size.toNat * (boundX.toNat + boundY.toNat) + 2
      let st0 : SearchState :=
        { openQ := insert createQueue start (estimateDistance startCoord endCoord),
          closed := fun _ => false,
          gScores := fun _ => Rt2.zero,
          cameFrom := fun _ => -1 }
      astarLoop grid bounds start end_ endCoord rsFuel (size.toNat + 1) st0

/-- The body of the `for` loop over directions in `astar_unopt_compute`
(`AStar.c:452`–`482`): plain A* expansion into the eight adjacent
walkable cells. -/
def unoptInnerBody (grid : Grid) (bounds : Coord) (endCoord : Coord)
    (node : Int) (nodeCoord : Coord) (st : SearchState) (i : Int) : SearchState :=
  let newCoord := adjustInDirection nodeCoord i
  let newNode := getIndex bounds newCoord
  if ! (contained bounds newCoord && grid newNode.toNat) then st
  else if st.closed newNode then st
  else if ! existsInQueue st.openQ newNode then
    let g2 := st.gScores node + preciseDistance nodeCoord newCoord
    { openQ := insert st.openQ newNode (g2 + estimateDistance newCoord endCoord),
      closed := st.closed,
      gScores := upd st.gScores newNode g2,
      cameFrom := upd st.cameFrom newNode node }
  else if Rt2.ltB (st.gScores node + preciseDistance nodeCoord newCoord)
      (st.gScores newNode) then
    let oldGScore := Rt2.truncI (st.gScores newNode)
    let g2 := st.gScores node + preciseDistance nodeCoord newCoord
    { openQ := changePriority st.openQ newNode
        ((priorityOf st.openQ newNode - Rt2.ofInt oldGScore) + g2),
      closed := st.closed,
      gScores := upd st.gScores newNode g2,
      cameFrom := upd st.cameFrom newNode node }
  else st

/-- One iteration of the `while` loop of `astar_unopt_compute`. -/
def unoptStep (grid : Grid) (bounds : Coord) (startIdx : Int)
    (endCoord : Coord) (rsFuel : Nat) (st : SearchState) :
    (Option (Option (List Int) × Int)) ⊕ SearchState :=
  match findMin st.openQ with
  | none => Sum.inl (some (none, -1))
  | some e =>
    let node := e.1
    let nodeCoord := getCoord bounds node
    if nodeCoord = endCoord then
      Sum.inl (match recordSolution bounds st.cameFrom rsFuel startIdx node with
        | none => none
        | some l => some (some l, (l.length : Int)))
    else
      let st1 : SearchState :=
        { openQ := deleteMin st.openQ, closed := upd st.closed node true,
          gScores := st.gScores, cameFrom := st.cameFrom }
      Sum.inr (dirRange.foldl (unoptInnerBody grid bounds endCoord node nodeCoord) st1)

/-- The `while` loop of `astar_unopt_compute`, with fuel. -/
def unoptLoop (grid : Grid) (bounds : Coord) (startIdx : Int)
    (endCoord : Coord) (rsFuel : Nat) :
    Nat → SearchState → Option (Option (List Int) × Int)
  | 0, _ => none
  | fuel + 1, st =>
    match unoptStep grid bounds startIdx endCoord rsFuel st with
    | Sum.inl r => r
    | Sum.inr st2 => unoptLoop grid bounds startIdx endCoord rsFuel fuel st2

/-- `astar_unopt_compute` of `AStar.c`: the unoptimised reference A*.
The redundant `if (contained (bounds, startCoord))` guard before the
initial insert (`AStar.c:438`) is replicated. -/
def astar_unopt_compute (grid : Grid) (boundX boundY start end_ : Int) :
    Option (Option (List Int) × Int) :=
  let bounds : Coord := ⟨boundX, boundY⟩
  let size := bounds.x * bounds.y
  if size ≤ start ∨ start < 0 ∨ size ≤ end_ ∨ end_ < 0 then some (none, -1)
  else
    let startCoord := getCoord bounds start
    let endCoord := getCoord bounds end_
    if ¬ contained bounds startCoord ∨ ¬ contained bounds endCoord then some (none, -1)
    else
      let rsFuel := size.toNat * (boundX.toNat + boundY.toNat) + 2
      let st0 : SearchState :=
        { openQ := if contained bounds startCoord then
            insert createQueue start (estimateDistance startCoord endCoord)
          else createQueue,
          closed := fun _ => false,
          gScores := fun _ => Rt2.zero,
          cameFrom := fun _ => -1 }
      unoptLoop grid bounds start endCoord rsFuel (size.toNat + 1) st0

/-- Total cost of a returned path (goal-first, start excluded): the sum of
`preciseDistance` over consecutive cells, including the step from `start`
to the path's last cell; the empty path costs 0. -/
def pathCost (bounds : Coord) (start : Int) : List Int → Rt2
  | [] => Rt2.zero
  | [p] => preciseDistance (getCoord bounds p) (getCoord bounds start)
  | p :: q :: rest => preciseDistance (getCoord bounds p) (getCoord bounds q) +
      pathCost bounds start (q :: rest)

/-- Claim-side adjacency test: the two linear indices decode to distinct
coordinates that differ by at most 1 in each component (one 8-neighbour
step). -/
def stepOK (bounds : Coord) (a b : Int) : Bool :=
  let ca := getCoord bounds a
  let cb := getCoord bounds b
  decide (ca ≠ cb ∧ |ca.x - cb.x| ≤ 1 ∧ |ca.y - cb.y| ≤ 1)

/-- Claim-side: every consecutive pair of the list is one 8-neighbour
step. -/
def chainAdjB (bounds : Coord) : List Int → Bool
  | [] => true
  | [_] => true
  | a :: b :: r => stepOK bounds a b && chainAdjB bounds (b :: r)

/-- Modelled from the spec: a valid path for the reference shortest-path
problem — goal-first and start-excluded (the spec's path convention),
every cell in-bounds and walkable, and consecutive cells (including the
final step to `start`) 8-adjacent.  The start cell itself need not be
walkable (spec §4.9 declares queries with an unwalkable start valid). -/
def validPathB (grid : Grid) (bounds : Coord) (start goal : Int) (p : List Int) : Bool :=
  (match p with
   | [] => decide (start = goal)
   | h :: _ => decide (h = goal)) &&
  p.all (fun i => isEnterable grid bounds (getCoord bounds i)) &&
  chainAdjB bounds (p ++ [start])

/-- Modelled from the spec: `c` is "the optimal cost computed by a
reference 8-directional Dijkstra with orthogonal step cost 1 and
diagonal step cost √2" — that is, the least total step cost over valid
8-neighbour paths from `start` to `goal` (on adjacent cells
`preciseDistance` is exactly 1 for a straight step and √2 for a
diagonal step). -/
def IsOptimalCost (grid : Grid) (bounds : Coord) (start goal : Int) (c : Rt2) : Prop :=
  (∃ p, validPathB grid bounds start goal p = true ∧ pathCost bounds start p = c) ∧
  ∀ p, validPathB grid bounds start goal p = true →
    c.val ≤ (pathCost bounds start p).val

theorem Rt2.val_add (x y : Rt2) : (x + y).val = x.val + y.val := by
  show (Rt2.add x y).val = _
  simp only [Rt2.add, Rt2.val]
  push_cast
  ring

theorem Rt2.val_sub (x y : Rt2) : (x - y).val = x.val - y.val := by
  show (Rt2.sub x y).val = _
  simp only [Rt2.sub, Rt2.val]
  push_cast
  ring

theorem Rt2.val_zero : Rt2.zero.val = 0 := by
  simp [Rt2.zero, Rt2.val]

theorem Rt2.nonnegB_iff (x : Rt2) : Rt2.nonnegB x = true ↔ 0 ≤ x.val := by
  have hs0 : 0 ≤ Real.sqrt 2 := Real.sqrt_nonneg 2
  have s2 : Real.sqrt 2 * Real.sqrt 2 = 2 := Real.mul_self_sqrt (by norm_num)
  unfold Rt2.nonnegB Rt2.val
  by_cases ha : 0 ≤ x.a <;> by_cases hb : 0 ≤ x.b
  · rw [if_pos ha, if_pos hb]
    have h1 : 0 ≤ (x.b : ℝ) * Real.sqrt 2 :=
      mul_nonneg (by exact_mod_cast hb) hs0
    have h2 : 0 ≤ (x.a : ℝ) := by exact_mod_cast ha
    simp only [true_iff]
    linarith
  · rw [if_pos ha, if_neg hb]
    have ha' : 0 ≤ (x.a : ℝ) := by exact_mod_cast ha
    have hb' : (x.b : ℝ) < 0 := by exact_mod_cast not_le.mp hb
    have e : (-(x.b : ℝ) * Real.sqrt 2) * (-(x.b : ℝ) * Real.sqrt 2) = 2 * (x.b : ℝ) ^ 2 := by
      rw [show (-(x.b : ℝ) * Real.sqrt 2) * (-(x.b : ℝ) * Real.sqrt 2) =
        (Real.sqrt 2 * Real.sqrt 2) * ((x.b : ℝ) ^ 2) from by ring, s2]
    have hbs : 0 ≤ -(x.b : ℝ) * Real.sqrt 2 := mul_nonneg (by linarith) hs0
    rw [decide_eq_true_eq]
    constructor
    · intro h
      have h' : 2 * (x.b : ℝ) ^ 2 ≤ (x.a : ℝ) ^ 2 := by exact_mod_cast h
      by_contra hneg
      push_neg at hneg
      have hlt : (x.a : ℝ) < -(x.b : ℝ) * Real.sqrt 2 := by linarith
      have := mul_self_lt_mul_self ha' hlt
      nlinarith
    · intro h
      have hle : -(x.b : ℝ) * Real.sqrt 2 ≤ (x.a : ℝ) := by linarith
      have := mul_le_mul hle hle hbs ha'
      have h' : 2 * (x.b : ℝ) ^ 2 ≤ (x.a : ℝ) ^ 2 := by nlinarith
      exact_mod_cast h'
  · rw [if_neg ha, if_pos hb]
    have ha' : (x.a : ℝ) < 0 := by exact_mod_cast not_le.mp ha
    have hb' : 0 ≤ (x.b : ℝ) := by exact_mod_cast hb
    have e : ((x.b : ℝ) * Real.sqrt 2) * ((x.b : ℝ) * Real.sqrt 2) = 2 * (x.b : ℝ) ^ 2 := by
      rw [show ((x.b : ℝ) * Real.sqrt 2) * ((x.b : ℝ) * Real.sqrt 2) =
        (Real.sqrt 2 * Real.sqrt 2) * ((x.b : ℝ) ^ 2) from by ring, s2]
    have hbs : 0 ≤ (x.b : ℝ) * Real.sqrt 2 := mul_nonneg hb' hs0
    rw [decide_eq_true_eq]
    constructor
    · intro h
      have h' : (x.a : ℝ) ^ 2 ≤ 2 * (x.b : ℝ) ^ 2 := by exact_mod_cast h
      by_contra hneg
      push_neg at hneg
      have hlt : (x.b : ℝ) * Real.sqrt 2 < -(x.a : ℝ) := by linarith
      have hnn : 0 ≤ -(x.a : ℝ) := by linarith
      have := mul_self_lt_mul_self hbs hlt
      nlinarith
    · intro h
      have hle : -(x.a : ℝ) ≤ (x.b : ℝ) * Real.sqrt 2 := by linarith
      have hnn : 0 ≤ -(x.a : ℝ) := by linarith
      have := mul_le_mul hle hle hnn hbs
      have h' : (x.a : ℝ) ^ 2 ≤ 2 * (x.b : ℝ) ^ 2 := by nlinarith
      exact_mod_cast h'
  · rw [if_neg ha, if_neg hb]
    have ha' : (x.a : ℝ) < 0 := by exact_mod_cast not_le.mp ha
    have hb' : (x.b : ℝ) < 0 := by exact_mod_cast not_le.mp hb
    have h1 : (x.b : ℝ) * Real.sqrt 2 ≤ 0 :=
      mul_nonpos_of_nonpos_of_nonneg (by linarith) hs0
    simp only [Bool.false_eq_true, false_iff, not_le]
    linarith

theorem Rt2.leB_iff (x y : Rt2) : Rt2.leB x y = true ↔ x.val ≤ y.val := by
  unfold Rt2.leB
  rw [Rt2.nonnegB_iff, Rt2.val_sub]
  constructor <;> intro h <;> linarith

theorem Rt2.ltB_iff (x y : Rt2) : Rt2.ltB x y = true ↔ x.val < y.val := by
  unfold Rt2.ltB
  rw [Bool.not_eq_true', ← Bool.not_eq_true, Rt2.leB_iff]
  constructor <;> intro h <;> [exact lt_of_not_le h; exact not_le.mpr h]

/-- Replays the iterations of `astar_compute`'s `while` loop: the state
after `n` non-final iterations (stops changing once the loop would
exit). -/
def astarIterate (grid : Grid) (bounds : Coord) (startIdx endIdx : Int)
    (endCoord : Coord) (rsFuel : Nat) : Nat → SearchState → SearchState
  | 0, st => st
  | n + 1, st =>
    match astarStep grid bounds startIdx endIdx endCoord rsFuel st with
    | Sum.inl _ => st
    | Sum.inr st2 => astarIterate grid bounds startIdx endIdx endCoord rsFuel n st2

/-- The initial search state built by `astar_compute` (`AStar.c:345`–`351`). -/
def initState (bounds : Coord) (startIdx : Int) (endCoord : Coord) : SearchState :=
  { openQ := insert createQueue startIdx (estimateDistance (getCoord bounds startIdx) endCoord),
    closed := fun _ => false,
    gScores := fun _ => Rt2.zero,
    cameFrom := fun _ => -1 }

/-- 5×4 grid on which the truncation in the decrease-key update makes
`astar_compute` return a suboptimal path (start 5, goal 19). -/
def gridC1case : Grid := gridOfList
  [true, true, false, false, true,
   false, false, true, false, true,
   true, false, false, true, false,
   true, true, true, true, true]

/-- 4×3 grid on which a decrease-key leaves a queue priority different
from `gScore + h` (start 0, goal 11). -/
def gridC2case : Grid := gridOfList
  [true, true, true, false,
   true, false, false, true,
   false, true, true, true]

/-- 5×4 grid on which `astar_compute` and `astar_unopt_compute` return
paths of different cost (start 10, goal 4). -/
def gridC3case : Grid := gridOfList
  [false, true, true, true, true,
   true, false, true, true, false,
   true, false, true, true, false,
   true, true, true, false, false]

theorem getIndex_getCoord (bounds : Coord) (s : Int) :
    getIndex bounds (getCoord bounds s) = s := by
  unfold getIndex getCoord
  have h1 := Int.tmod_add_tdiv s bounds.x
  have h2 : bounds.x * s.tdiv bounds.x = s.tdiv bounds.x * bounds.x := mul_comm _ _
  simp only []
  omega

theorem contained_getCoord (W H s : Int) (hW : 0 < W) (hH : 0 < H)
    (h0 : 0 ≤ s) (hs : s < W * H) :
    contained ⟨W, H⟩ (getCoord ⟨W, H⟩ s) = true := by
  rw [contained_iff]
  unfold getCoord
  have h1 : 0 ≤ s.tmod W := Int.tmod_nonneg W h0
  have h2 : s.tmod W < W := Int.tmod_lt_of_pos s hW
  have h3 : s.tdiv W = s / W := Int.tdiv_eq_ediv h0 (by omega)
  have h4 : 0 ≤ s / W := Int.ediv_nonneg h0 (by omega)
  have h5 : s / W < H := by
    rw [Int.ediv_lt_iff_lt_mul hW]
    calc s < W * H := hs
    _ = H * W := mul_comm W H
  refine ⟨h1, ?_, h2, ?_⟩
  · show 0 ≤ s.tdiv W
    rw [h3]
    exact h4
  · show s.tdiv W < H
    rw [h3]
    exact h5

/-- C1: the claim asserts that the cost of the path returned by
`astar_compute` always equals the optimal cost of the reference
8-directional shortest-path problem.  On `gridC1case` with start 5 and
goal 19, `astar_compute` returns the path `[19, 13, 7, 1]` of cost
`4·√2`, yet the valid path `[19, 18, 17, 16, 10]` costs only `4 + √2`,
so the returned cost is not the optimal cost.  (The cause is the C
slip `int oldGScore = gScores[newNode];`, which truncates a `double`
and corrupts the re-keyed priority.) -/
theorem c1_optimality_bug :
    astar_compute gridC1case 5 4 5 19 = some (some [19, 13, 7, 1], 4) ∧
    pathCost ⟨5, 4⟩ 5 [19, 13, 7, 1] = ⟨0, 4⟩ ∧
    validPathB gridC1case ⟨5, 4⟩ 5 19 [19, 13, 7, 1] = true ∧
    validPathB gridC1case ⟨5, 4⟩ 5 19 [19, 18, 17, 16, 10] = true ∧
    pathCost ⟨5, 4⟩ 5 [19, 18, 17, 16, 10] = ⟨4, 1⟩ ∧
    ¬ IsOptimalCost gridC1case ⟨5, 4⟩ 5 19 (pathCost ⟨5, 4⟩ 5 [19, 13, 7, 1]) := by
  refine ⟨?_, ?_, ?_, ?_, ?_, ?_⟩
  · set_option maxRecDepth 8000 in decide
  · decide
  · decide
  · decide
  · decide
  · rintro ⟨-, hopt⟩
    have h := hopt [19, 18, 17, 16, 10] (by decide)
    have hc1 : pathCost ⟨5, 4⟩ 5 [19, 13, 7, 1] = ⟨0, 4⟩ := by decide
    have hc2 : pathCost ⟨5, 4⟩ 5 [19, 18, 17, 16, 10] = ⟨4, 1⟩ := by decide
    rw [hc1, hc2] at h
    have hlt : Rt2.ltB ⟨4, 1⟩ ⟨0, 4⟩ = true := by decide
    rw [Rt2.ltB_iff] at hlt
    linarith

/-- C2: the claim asserts that throughout a run every node in the open
queue has priority `gScore + h`.  Replaying `astar_compute`'s loop on
`gridC2case` (start 0, goal 11), after five iterations node 10 sits in
the open queue with priority `1 + 3·√2` (the result of the truncated
re-key `old_priority − (int)old_g + new_g`), while its
`gScore + h` is `3 + √2`: the invariant, and in particular the claim
that the re-key formula preserves it, fails on the code. -/
theorem c2_queue_invariant_bug :
    (let bounds : Coord := ⟨4, 3⟩
     let endCoord := getCoord bounds 11
     let st := astarIterate gridC2case bounds 0 11 endCoord 100 5
       (initState bounds 0 endCoord)
     existsInQueue st.openQ 10 = true ∧
     priorityOf st.openQ 10 = ⟨1, 3⟩ ∧
     st.gScores 10 + estimateDistance (getCoord bounds 10) endCoord = ⟨3, 1⟩ ∧
     priorityOf st.openQ 10 ≠
       st.gScores 10 + estimateDistance (getCoord bounds 10) endCoord) := by
  set_option maxRecDepth 4000 in decide

/-- C3: the claim asserts that `astar_compute` and `astar_unopt_compute`
agree on no-path inputs and return equal-cost paths otherwise.  On
`gridC3case` (start 10, goal 4) both return a path, but the JPS path
costs `4 + √2` while the plain-A* path costs `4·√2` (again a
consequence of the truncating decrease-key re-key). -/
theorem c3_equivalence_bug :
    astar_compute gridC3case 5 4 10 4 = some (some [4, 3, 2, 1, 5], 5) ∧
    astar_unopt_compute gridC3case 5 4 10 4 = some (some [4, 8, 12, 16], 4) ∧
    pathCost ⟨5, 4⟩ 10 [4, 3, 2, 1, 5] = ⟨4, 1⟩ ∧
    pathCost ⟨5, 4⟩ 10 [4, 8, 12, 16] = ⟨0, 4⟩ ∧
    (⟨4, 1⟩ : Rt2) ≠ ⟨0, 4⟩ := by
  refine ⟨?_, ?_, by decide, by decide, by decide⟩
  · set_option maxRecDepth 8000 in decide
  · set_option maxRecDepth 8000 in decide

/-- C4 (counterexample): when `start = goal` the query returns a
non-NULL empty path (`*solLength = 0`), and the empty sequence does not
contain the goal, contradicting "the returned sequence contains `goal`
exactly once, as its first element". -/
theorem c4_empty_path_counterexample :
    astar_compute (gridOfList [true]) 1 1 0 0 = some (some [], 0) ∧
    ¬ (([] : List Int).count 0 = 1) := by
  exact ⟨by decide, by decide⟩

/-- C5 (counterexample): `astar_compute` never tests that the start cell
is walkable.  On the 2×1 grid whose start cell 0 is blocked and whose
goal cell 1 is walkable it returns the path `[1]`, so a returned path
does not imply a walkable start. -/
theorem c5_unwalkable_start_counterexample :
    astar_compute (gridOfList [false, true]) 2 1 0 1 = some (some [1], 1) ∧
    isEnterable (gridOfList [false, true]) ⟨2, 1⟩ (getCoord ⟨2, 1⟩ 0) = false := by
  exact ⟨by decide, by decide⟩

/-- C10 (counterexample): with bounds `(-2, -3)` the product `W·H` is 6,
so `start = goal = 3` lies within `[0, W·H)`, yet `astar_compute`
returns NULL with the `-1` sentinel (the decoded coordinate fails the
`contained` check), not the claimed empty path. -/
theorem c10_negative_bounds_counterexample :
    (0 ≤ (3 : Int) ∧ (3 : Int) < (-2) * (-3)) ∧
    astar_compute (gridOfList [true]) (-2) (-3) 3 3 = some (none, -1) := by
  exact ⟨by decide, by decide⟩

/-- C6: if the start or goal index lies outside `[0, W·H)`, or its
decoded coordinate lies outside the bounds, `astar_compute` returns the
no-path result: NULL (modelled `none`) with `*solLength = -1`. -/
theorem c6_invalid_query (grid : Grid) (boundX boundY start end_ : Int)
    (h : ¬ (0 ≤ start ∧ start < boundX * boundY) ∨
         ¬ (0 ≤ end_ ∧ end_ < boundX * boundY) ∨
         contained ⟨boundX, boundY⟩ (getCoord ⟨boundX, boundY⟩ start) = false ∨
         contained ⟨boundX, boundY⟩ (getCoord ⟨boundX, boundY⟩ end_) = false) :
    astar_compute grid boundX boundY start end_ = some (none, -1) := by
  unfold astar_compute
  by_cases h1 : boundX * boundY ≤ start ∨ start < 0 ∨ boundX * boundY ≤ end_ ∨ end_ < 0
  · rw [if_pos h1]
  · rw [if_neg h1]
    have h2 : ¬ contained ⟨boundX, boundY⟩ (getCoord ⟨boundX, boundY⟩ start) = true ∨
              ¬ contained ⟨boundX, boundY⟩ (getCoord ⟨boundX, boundY⟩ end_) = true := by
      push_neg at h1
      rcases h with h | h | h | h
      · exfalso
        omega
      · exfalso
        omega
      · left
        simp [h]
      · right
        simp [h]
    rw [if_pos h2]

/-- C6 witness: goal index 5 is outside the 2×2 grid, and the result is
the no-path sentinel. -/
theorem c6_invalid_query_witness :
    astar_compute (gridOfList [true, true, true, true]) 2 2 0 5 = some (none, -1) :=
  c6_invalid_query (gridOfList [true, true, true, true]) 2 2 0 5
    (Or.inr (Or.inl (by decide)))

/-- C10 (amended): for positive bounds, whenever `start = goal` lies in
`[0, W·H)` — even when that cell is unwalkable — `astar_compute` returns
a non-NULL pointer with `*solLength = 0` (the empty path). -/
theorem c10_start_eq_goal (grid : Grid) (W H s : Int) (hW : 0 < W) (hH : 0 < H)
    (h0 : 0 ≤ s) (hs : s < W * H) :
    astar_compute grid W H s s = some (some [], 0) := by
  unfold astar_compute
  have hg : ¬ (W * H ≤ s ∨ s < 0 ∨ W * H ≤ s ∨ s < 0) := by omega
  rw [if_neg hg]
  have hc : contained ⟨W, H⟩ (getCoord ⟨W, H⟩ s) = true :=
    contained_getCoord W H s hW hH h0 hs
  have hc2 : ¬ (¬ contained ⟨W, H⟩ (getCoord ⟨W, H⟩ s) = true ∨
                ¬ contained ⟨W, H⟩ (getCoord ⟨W, H⟩ s) = true) := by
    simp [hc]
  rw [if_neg hc2]
  show astarLoop grid ⟨W, H⟩ s s (getCoord ⟨W, H⟩ s) _ ((W * H).toNat + 1) _ = _
  have hround : getIndex ⟨W, H⟩ ⟨(getCoord ⟨W, H⟩ s).x, (getCoord ⟨W, H⟩ s).y⟩ = s := by
    have := getIndex_getCoord ⟨W, H⟩ s
    simpa [getIndex] using this
  simp [astarLoop, astarStep, initState, insert, createQueue, findMin,
    recordSolution, recordLoop, nextNodeInSolution, hround]

/-- C10 witness: a 1×1 grid whose only cell is blocked still yields the
empty path for `start = goal = 0`. -/
theorem c10_start_eq_goal_witness :
    astar_compute (gridOfList [false]) 1 1 0 0 = some (some [], 0) :=
  c10_start_eq_goal (gridOfList [false]) 1 1 0 (by decide) (by decide) (by decide)
    (by decide)

/-- C7: for a direction `d` in `0..7`, `hasForcedNeighbours` computes
exactly the claimed formula: with `ent k` = "the cell one step from `c`
in direction `(d+k) mod 8` is in bounds and walkable" and
`impl a b = (¬a) ∨ b`, the result is
`¬impl (ent (-1)) (ent (-2)) ∨ ¬impl (ent 1) (ent 2)` for even
(straight) `d` and `¬impl (ent (-2)) (ent (-3)) ∨ ¬impl (ent 2) (ent 3)`
for odd (diagonal) `d`. -/
theorem c7_forced_neighbours_spec (grid : Grid) (bounds c : Coord) (d : Int)
    (h0 : 0 ≤ d) (h8 : d < 8) :
    hasForcedNeighbours grid bounds c d =
      (let ent : Int → Bool := fun k =>
        isEnterable grid bounds (adjustInDirection c (d + k))
       let impl : Bool → Bool → Bool := fun a b => !a || b
       if d.tmod 2 = 0 then
         (! impl (ent (-1)) (ent (-2))) || (! impl (ent 1) (ent 2))
       else
         (! impl (ent (-2)) (ent (-3))) || (! impl (ent 2) (ent 3))) := by
  have himpl : ∀ a b : Bool, implies a b = (!a || b) := by decide
  unfold hasForcedNeighbours directionIsDiagonal
  by_cases hd : d.tmod 2 = 0 <;> simp [hd, himpl]

/-- C7 witness: the theorem applied to direction 1 on a concrete 3×3
grid and cell. -/
theorem c7_forced_neighbours_spec_witness :
    (0 : Int) ≤ 1 ∧ (1 : Int) < 8 ∧
    hasForcedNeighbours (gridOfList [true, true, true, true, true, true, false, true, true])
        ⟨3, 3⟩ ⟨1, 1⟩ 1 =
      (let ent : Int → Bool := fun k =>
        isEnterable (gridOfList [true, true, true, true, true, true, false, true, true])
          ⟨3, 3⟩ (adjustInDirection ⟨1, 1⟩ (1 + k))
       let impl : Bool → Bool → Bool := fun a b => !a || b
       if (1 : Int).tmod 2 = 0 then
         (! impl (ent (-1)) (ent (-2))) || (! impl (ent 1) (ent 2))
       else
         (! impl (ent (-2)) (ent (-3))) || (! impl (ent 2) (ent 3))) :=
  ⟨by decide, by decide,
    c7_forced_neighbours_spec (gridOfList [true, true, true, true, true, true, false, true, true])
      ⟨3, 3⟩ ⟨1, 1⟩ 1 (by decide) (by decide)⟩

theorem adjustInDirection_congr (cc : Coord) (d1 d2 : Int) (h : dirDelta d1 = dirDelta d2) :
    adjustInDirection cc d1 = adjustInDirection cc d2 := by
  unfold adjustInDirection
  rw [h]

theorem hasForced_dir8 (grid : Grid) (bounds : Coord) (cc : Coord) :
    hasForcedNeighbours grid bounds cc 8 = hasForcedNeighbours grid bounds cc 0 := by
  unfold hasForcedNeighbours
  have hdiag : directionIsDiagonal (8 : Int) = directionIsDiagonal 0 := by decide
  have a1 : adjustInDirection cc (8 + -1) = adjustInDirection cc (0 + -1) :=
    adjustInDirection_congr cc _ _ (by decide)
  have a2 : adjustInDirection cc (8 + -2) = adjustInDirection cc (0 + -2) :=
    adjustInDirection_congr cc _ _ (by decide)
  have a3 : adjustInDirection cc (8 + 1) = adjustInDirection cc (0 + 1) :=
    adjustInDirection_congr cc _ _ (by decide)
  have a4 : adjustInDirection cc (8 + 2) = adjustInDirection cc (0 + 2) :=
    adjustInDirection_congr cc _ _ (by decide)
  have a5 : adjustInDirection cc (8 + -3) = adjustInDirection cc (0 + -3) :=
    adjustInDirection_congr cc _ _ (by decide)
  have a6 : adjustInDirection cc (8 + 3) = adjustInDirection cc (0 + 3) :=
    adjustInDirection_congr cc _ _ (by decide)
  simp only [hdiag, a1, a2, a3, a4, a5, a6]

/-- Scanning in direction 8 is the same as scanning in direction 0
(north): every use of the direction is taken mod 8. -/
theorem jumpFuel_dir8 (grid : Grid) (bounds : Coord) (goal : Int) :
    ∀ f s, jumpFuel grid bounds goal f 8 s = jumpFuel grid bounds goal f 0 s := by
  intro f
  induction f with
  | zero => intro s; rfl
  | succ f IH =>
    intro s
    have hadj : adjustInDirection (getCoord bounds s) 8 =
        adjustInDirection (getCoord bounds s) 0 :=
      adjustInDirection_congr _ _ _ (by decide)
    have hdiag : directionIsDiagonal (8 : Int) = false := by decide
    have hdiag0 : directionIsDiagonal (0 : Int) = false := by decide
    simp only [jumpFuel, hadj, hdiag, hdiag0, hasForced_dir8, IH, Bool.false_eq_true,
      if_false]

/-- C8: `jump` satisfies the claimed recursive specification.  Writing
`c` for the cell one step from `start` in direction `dir` and `n` for
its index: return `-1` when `c` is not walkable (or out of bounds);
else `n` when `n` is the goal; else `n` when `c` has forced neighbours
for `dir`; else, for diagonal `dir`, `n` when a lookahead jump in either
component straight direction `(dir−1) mod 8` or `(dir+1) mod 8`
(non-negative mod) finds a node `≥ 0`; otherwise recurse from `n`. -/
theorem c8_jump_spec (grid : Grid) (bounds : Coord) (goal dir start : Int)
    (h0 : 0 ≤ dir) (h8 : dir < 8) :
    jump grid bounds goal dir start =
      (let c := adjustInDirection (getCoord bounds start) dir
       let n := getIndex bounds c
       if ¬ isEnterable grid bounds c then -1
       else if n = goal then n
       else if hasForcedNeighbours grid bounds c dir then n
       else if directionIsDiagonal dir ∧
           (0 ≤ jump grid bounds goal ((dir - 1) % 8) n ∨
            0 ≤ jump grid bounds goal ((dir + 1) % 8) n) then n
       else jump grid bounds goal dir n) := by
  have hB := rayLen_le bounds
  set B := bounds.x.toNat + bounds.y.toNat with hBdef
  by_cases henter : isEnterable grid bounds (adjustInDirection (getCoord bounds start) dir) = true
  case neg =>
    rw [Bool.not_eq_true] at henter
    show jumpFuel grid bounds goal (2 * B + 6) dir start = _
    rw [show 2 * B + 6 = (2 * B + 5) + 1 from rfl]
    simp only [jumpFuel, henter, Bool.false_eq_true, if_false, not_false_eq_true, if_true]
  case pos =>
    have hcont : contained bounds (adjustInDirection (getCoord bounds start) dir) = true := by
      simp only [isEnterable, Bool.and_eq_true] at henter
      exact henter.1
    have hround :
        getCoord bounds (getIndex bounds (adjustInDirection (getCoord bounds start) dir)) =
          adjustInDirection (getCoord bounds start) dir :=
      getCoord_getIndex bounds _ hcont
    have hrayB : rayLen bounds dir (adjustInDirection (getCoord bounds start) dir) ≤ B :=
      hB dir _ hcont
    have hsame : jumpFuel grid bounds goal (2 * B + 5) dir
          (getIndex bounds (adjustInDirection (getCoord bounds start) dir)) =
        jump grid bounds goal dir
          (getIndex bounds (adjustInDirection (getCoord bounds start) dir)) := by
      show _ = jumpFuel grid bounds goal (2 * B + 6) dir _
      apply jumpFuel_congr grid bounds goal _ _ dir _ h0 <;>
        · unfold jumpDepth
          rw [hround]
          have := rayLen_le bounds dir _ hcont
          split <;> omega
    show jumpFuel grid bounds goal (2 * B + 6) dir start = _
    rw [show 2 * B + 6 = (2 * B + 5) + 1 from rfl]
    by_cases hdiag : directionIsDiagonal dir = true
    case neg =>
      conv_lhs => rw [jumpFuel]
      rw [Bool.not_eq_true] at hdiag
      simp only [henter, if_true, hdiag, Bool.false_eq_true, if_false, hsame,
        not_true_eq_false, false_and]
    case pos =>
      have hodd : dir.tmod 2 ≠ 0 := by simpa [directionIsDiagonal] using hdiag
      have hdir1 : (1 : Int) ≤ dir := by
        rcases lt_or_le 0 dir with h | h
        · omega
        · exfalso
          apply hodd
          have : dir = 0 := le_antisymm h h0
          simp [this]
      have hdepth1 : jumpDepth bounds (dir - 1)
          (getIndex bounds (adjustInDirection (getCoord bounds start) dir)) ≤ 2 * B + 5 := by
        unfold jumpDepth
        rw [hround]
        have := rayLen_le bounds (dir - 1) _ hcont
        simp [directionIsDiagonal, tmod_two_not_zero_sub_one hodd]
        omega
      have hdepth2 : jumpDepth bounds (dir + 1)
          (getIndex bounds (adjustInDirection (getCoord bounds start) dir)) ≤ 2 * B + 5 := by
        unfold jumpDepth
        rw [hround]
        have := rayLen_le bounds (dir + 1) _ hcont
        simp [directionIsDiagonal, tmod_two_not_zero_add_one hodd]
        omega
      have la1 : jumpFuel grid bounds goal (2 * B + 5) (dir - 1)
            (getIndex bounds (adjustInDirection (getCoord bounds start) dir)) =
          jump grid bounds goal ((dir - 1) % 8)
            (getIndex bounds (adjustInDirection (getCoord bounds start) dir)) := by
        have hmod : (dir - 1) % 8 = dir - 1 := Int.emod_eq_of_lt (by omega) (by omega)
        rw [hmod]
        show _ = jumpFuel grid bounds goal (2 * B + 6) (dir - 1) _
        apply jumpFuel_congr grid bounds goal _ _ (dir - 1) _ (by omega) hdepth1 (by omega)
      have la2 : jumpFuel grid bounds goal (2 * B + 5) (dir + 1)
            (getIndex bounds (adjustInDirection (getCoord bounds start) dir)) =
          jump grid bounds goal ((dir + 1) % 8)
            (getIndex bounds (adjustInDirection (getCoord bounds start) dir)) := by
        by_cases h7 : dir = 7
        · subst h7
          have hmod : ((7 : Int) + 1) % 8 = 0 := by decide
          rw [hmod]
          show _ = jumpFuel grid bounds goal (2 * B + 6) 0 _
          rw [show (7 : Int) + 1 = 8 from by norm_num, jumpFuel_dir8]
          apply jumpFuel_congr grid bounds goal _ _ 0 _ le_rfl
          · have h78 : jumpDepth bounds (8 : Int)
                (getIndex bounds (adjustInDirection (getCoord bounds start) 7)) =
                jumpDepth bounds (0 : Int)
                (getIndex bounds (adjustInDirection (getCoord bounds start) 7)) := by
              unfold jumpDepth rayLen
              rw [show dirDelta (8 : Int) = dirDelta 0 from by decide,
               show directionIsDiagonal (8 : Int) = directionIsDiagonal 0 from by decide]
            rw [← h78]
            exact hdepth2
          · have := rayLen_le bounds (0 : Int) _ hcont
            unfold jumpDepth
            rw [hround]
            simp [directionIsDiagonal]
            omega
        · have hmod : (dir + 1) % 8 = dir + 1 := Int.emod_eq_of_lt (by omega) (by omega)
          rw [hmod]
          show _ = jumpFuel grid bounds goal (2 * B + 6) (dir + 1) _
          apply jumpFuel_congr grid bounds goal _ _ (dir + 1) _ (by omega) hdepth2 (by omega)
      conv_lhs => rw [jumpFuel]
      simp only [henter, if_true, hdiag, hsame, la1, la2, not_true_eq_false,
        Bool.false_eq_true, if_false, true_and]
      by_cases hl1 : 0 ≤ jump grid bounds goal ((dir - 1) % 8)
          (getIndex bounds (adjustInDirection (getCoord bounds start) dir))
      · simp [hl1]
      · simp only [hl1, if_false]
        by_cases hl2 : 0 ≤ jump grid bounds goal ((dir + 1) % 8)
            (getIndex bounds (adjustInDirection (getCoord bounds start) dir))
        · simp [hl1, hl2]
        · simp [hl1, hl2]

/-- C8 witness: the specification applied to a concrete diagonal scan. -/
theorem c8_jump_spec_witness :
    (0 : Int) ≤ 1 ∧ (1 : Int) < 8 ∧
    jump (gridOfList [true, true, true, true, true, true, true, true, true]) ⟨3, 3⟩ 8 1 0 =
      (let c := adjustInDirection
        (getCoord ⟨3, 3⟩ 0) 1
       let n := getIndex ⟨3, 3⟩ c
       if ¬ isEnterable (gridOfList [true, true, true, true, true, true, true, true, true])
           ⟨3, 3⟩ c then -1
       else if n = 8 then n
       else if hasForcedNeighbours
           (gridOfList [true, true, true, true, true, true, true, true, true]) ⟨3, 3⟩ c 1 then n
       else if directionIsDiagonal 1 ∧
           (0 ≤ jump (gridOfList [true, true, true, true, true, true, true, true, true])
              ⟨3, 3⟩ 8 ((1 - 1) % 8) n ∨
            0 ≤ jump (gridOfList [true, true, true, true, true, true, true, true, true])
              ⟨3, 3⟩ 8 ((1 + 1) % 8) n) then n
       else jump (gridOfList [true, true, true, true, true, true, true, true, true])
         ⟨3, 3⟩ 8 1 n) :=
  ⟨by decide, by decide,
    c8_jump_spec (gridOfList [true, true, true, true, true, true, true, true, true])
      ⟨3, 3⟩ 8 1 0 (by decide) (by decide)⟩

theorem getIndex_bounds (bounds c : Coord) (h : contained bounds c = true) :
    0 ≤ getIndex bounds c ∧ getIndex bounds c < bounds.x * bounds.y := by
  rw [contained_iff] at h
  obtain ⟨h1, h2, h3, h4⟩ := h
  unfold getIndex
  constructor
  · have : (0 : Int) ≤ c.y * bounds.x := mul_nonneg (by omega) (by omega)
    omega
  · have hstep : c.y * bounds.x ≤ (bounds.y - 1) * bounds.x :=
      mul_le_mul_of_nonneg_right (by omega) (by omega)
    have : (bounds.y - 1) * bounds.x = bounds.y * bounds.x - bounds.x := by ring
    have hc : bounds.y * bounds.x = bounds.x * bounds.y := mul_comm _ _
    omega

theorem getIndex_inj (bounds : Coord) (c1 c2 : Coord)
    (h1 : contained bounds c1 = true) (h2 : contained bounds c2 = true)
    (h : getIndex bounds c1 = getIndex bounds c2) : c1 = c2 := by
  have e1 := getCoord_getIndex bounds c1 h1
  have e2 := getCoord_getIndex bounds c2 h2
  rw [← e1, ← e2, h]

theorem index_in_bounds_of_coord (bounds : Coord) (n : Int)
    (h : contained bounds (getCoord bounds n) = true) :
    0 ≤ n ∧ n < bounds.x * bounds.y := by
  have := getIndex_bounds bounds (getCoord bounds n) h
  rw [getIndex_getCoord] at this
  exact this

/-- The cell `j` steps from `c` in direction `d`. -/
def cellAt (c : Coord) (d : Int) (j : Nat) : Coord :=
  ⟨c.x + (j : Int) * (dirDelta d).1, c.y + (j : Int) * (dirDelta d).2⟩

theorem cellAt_zero (c : Coord) (d : Int) : cellAt c d 0 = c := by
  unfold cellAt
  simp

theorem cellAt_one (c : Coord) (d : Int) : cellAt c d 1 = adjustInDirection c d := by
  unfold cellAt adjustInDirection
  simp

theorem cellAt_shift (c : Coord) (d : Int) (j : Nat) :
    cellAt (adjustInDirection c d) d j = cellAt c d (j + 1) := by
  unfold cellAt adjustInDirection
  have hx : c.x + (dirDelta d).1 + (j : Int) * (dirDelta d).1 =
      c.x + ((j : Int) + 1) * (dirDelta d).1 := by ring
  have hy : c.y + (dirDelta d).2 + (j : Int) * (dirDelta d).2 =
      c.y + ((j : Int) + 1) * (dirDelta d).2 := by ring
  simp only []
  rw [Coord.mk.injEq]
  push_cast
  exact ⟨hx, hy⟩

/-- A straight- or diagonal-ray connection between two nodes, as produced
by `jump`: `n` lies `L ≥ 1` steps from `p` in some direction `d`; every
cell strictly after `p` up to and including `n` is walkable; and no cell
strictly between them is the goal. -/
def RayLink (grid : Grid) (bounds : Coord) (endIdx p n : Int) : Prop :=
  ∃ d : Int, 0 ≤ d ∧ d < 8 ∧ ∃ L : Nat, 1 ≤ L ∧
    getCoord bounds n = cellAt (getCoord bounds p) d L ∧
    (∀ j : Nat, 1 ≤ j → j ≤ L → isEnterable grid bounds (cellAt (getCoord bounds p) d j) = true) ∧
    (∀ j : Nat, 1 ≤ j → j < L → getIndex bounds (cellAt (getCoord bounds p) d j) ≠ endIdx)

/-- A successful `jumpFuel` scan yields a ray link: the result lies on
the ray from the argument node, all scanned cells are walkable, and the
goal is never strictly inside the scanned stretch (the scan would have
stopped there). -/
theorem jumpFuel_ray (grid : Grid) (bounds : Coord) (goalIdx : Int) :
    ∀ (f : Nat) (d p m : Int), 0 ≤ d → d < 8 →
      jumpFuel grid bounds goalIdx f d p = m → 0 ≤ m →
      ∃ L : Nat, 1 ≤ L ∧
        getCoord bounds m = cellAt (getCoord bounds p) d L ∧
        (∀ j : Nat, 1 ≤ j → j ≤ L →
          isEnterable grid bounds (cellAt (getCoord bounds p) d j) = true) ∧
        (∀ j : Nat, 1 ≤ j → j < L →
          getIndex bounds (cellAt (getCoord bounds p) d j) ≠ goalIdx) := by
  intro f
  induction f with
  | zero =>
    intro d p m _ _ hm hm0
    simp only [jumpFuel] at hm
    omega
  | succ f IH =>
    intro d p m hd0 hd8 hm hm0
    simp only [jumpFuel] at hm
    by_cases henter : isEnterable grid bounds (adjustInDirection (getCoord bounds p) d) = true
    case neg =>
      rw [if_neg henter] at hm
      omega
    case pos =>
      rw [if_pos henter] at hm
      have hcont : contained bounds (adjustInDirection (getCoord bounds p) d) = true := by
        simp only [isEnterable, Bool.and_eq_true] at henter
        exact henter.1
      have hround :
          getCoord bounds (getIndex bounds (adjustInDirection (getCoord bounds p) d)) =
            adjustInDirection (getCoord bounds p) d :=
        getCoord_getIndex bounds _ hcont
      have hone : ∀ j : Nat, 1 ≤ j → j ≤ 1 →
          isEnterable grid bounds (cellAt (getCoord bounds p) d j) = true := by
        intro j hj1 hj2
        have : j = 1 := by omega
        subst this
        rw [cellAt_one]
        exact henter
      by_cases hgoal : getIndex bounds (adjustInDirection (getCoord bounds p) d) = goalIdx
      case pos =>
        rw [if_pos hgoal] at hm
        subst hm
        exact ⟨1, le_rfl, by rw [cellAt_one]; exact hround, hone, by omega⟩
      case neg =>
        rw [if_neg hgoal] at hm
        by_cases hforced :
            hasForcedNeighbours grid bounds (adjustInDirection (getCoord bounds p) d) d = true
        case pos =>
          rw [if_pos hforced] at hm
          subst hm
          exact ⟨1, le_rfl, by rw [cellAt_one]; exact hround, hone, by omega⟩
        case neg =>
          rw [if_neg hforced] at hm
          have hrec : ∀ m : Int,
              jumpFuel grid bounds goalIdx f d
                  (getIndex bounds (adjustInDirection (getCoord bounds p) d)) = m →
              0 ≤ m →
              ∃ L : Nat, 1 ≤ L ∧
                getCoord bounds m = cellAt (getCoord bounds p) d L ∧
                (∀ j : Nat, 1 ≤ j → j ≤ L →
                  isEnterable grid bounds (cellAt (getCoord bounds p) d j) = true) ∧
                (∀ j : Nat, 1 ≤ j → j < L →
                  getIndex bounds (cellAt (getCoord bounds p) d j) ≠ goalIdx) := by
            intro m' hm' hm0'
            obtain ⟨L, hL1, hLc, hLe, hLg⟩ := IH d _ m' hd0 hd8 hm' hm0'
            refine ⟨L + 1, by omega, ?_, ?_, ?_⟩
            · rw [hLc, hround, cellAt_shift]
            · intro j hj1 hjL
              rcases Nat.eq_or_lt_of_le hj1 with h1 | h1
              · rw [← h1, cellAt_one]
                exact henter
              · have := hLe (j - 1) (by omega) (by omega)
                rw [hround, cellAt_shift] at this
                have hj : j - 1 + 1 = j := by omega
                rw [hj] at this
                exact this
            · intro j hj1 hjL
              rcases Nat.eq_or_lt_of_le hj1 with h1 | h1
              · rw [← h1, cellAt_one]
                exact hgoal
              · have := hLg (j - 1) (by omega) (by omega)
                rw [hround, cellAt_shift] at this
                have hj : j - 1 + 1 = j := by omega
                rw [hj] at this
                exact this
          by_cases hdiag : directionIsDiagonal d = true
          case pos =>
            rw [if_pos hdiag] at hm
            by_cases hla1 : 0 ≤ jumpFuel grid bounds goalIdx f (d - 1)
                (getIndex bounds (adjustInDirection (getCoord bounds p) d))
            case pos =>
              rw [if_pos hla1] at hm
              subst hm
              exact ⟨1, le_rfl, by rw [cellAt_one]; exact hround, hone, by omega⟩
            case neg =>
              rw [if_neg hla1] at hm
              by_cases hla2 : 0 ≤ jumpFuel grid bounds goalIdx f (d + 1)
                  (getIndex bounds (adjustInDirection (getCoord bounds p) d))
              case pos =>
                rw [if_pos hla2] at hm
                subst hm
                exact ⟨1, le_rfl, by rw [cellAt_one]; exact hround, hone, by omega⟩
              case neg =>
                rw [if_neg hla2] at hm
                exact hrec m hm hm0
          case neg =>
            rw [if_neg hdiag] at hm
            exact hrec m hm hm0

/-- `jump`'s ray-link property, at the wrapper's fuel. -/
theorem jump_ray (grid : Grid) (bounds : Coord) (goalIdx d p m : Int)
    (hd0 : 0 ≤ d) (hd8 : d < 8)
    (hm : jump grid bounds goalIdx d p = m) (hm0 : 0 ≤ m) :
    RayLink grid bounds goalIdx p m := by
  obtain ⟨L, h1, h2, h3, h4⟩ := jumpFuel_ray grid bounds goalIdx _ d p m hd0 hd8 hm hm0
  exact ⟨d, hd0, hd8, L, h1, h2, h3, h4⟩

theorem sqrtAsRt2_two_sq (L : Nat) : sqrtAsRt2 (2 * L ^ 2) = ⟨0, (L : Int)⟩ := by
  unfold sqrtAsRt2
  have h2 : (2 * L ^ 2) / 2 = L ^ 2 := by omega
  have hs : natSqrt (L ^ 2) = L := by
    rw [pow_two]
    exact natSqrt_sq L
  rw [h2, hs, if_pos rfl]

theorem pd_diag_case (c : Coord) (L : Nat) (hL : 1 ≤ L) (dx dy : Int)
    (hx : dx = 1 ∨ dx = -1) (hy : dy = 1 ∨ dy = -1) :
    preciseDistance c ⟨c.x + (L : Int) * dx, c.y + (L : Int) * dy⟩ = ⟨0, (L : Int)⟩ := by
  have hL1 : (1 : Int) ≤ (L : Int) := by exact_mod_cast hL
  have htwo : ((2 : Int) * (L : Int) ^ 2).toNat = 2 * L ^ 2 := by
    have : ((2 : Int) * (L : Int) ^ 2) = ((2 * L ^ 2 : Nat) : Int) := by push_cast; ring
    rw [this, Int.toNat_natCast]
  unfold preciseDistance
  simp only []
  rw [if_pos]
  · have e : (c.x - (c.x + (L : Int) * dx)) ^ 2 + (c.y - (c.y + (L : Int) * dy)) ^ 2 =
        2 * (L : Int) ^ 2 := by
      rcases hx with hx | hx <;> rcases hy with hy | hy <;> subst hx <;> subst hy <;> ring
    rw [e, htwo, sqrtAsRt2_two_sq]
  · constructor <;>
      rcases hx with hx | hx <;> rcases hy with hy | hy <;> subst hx <;> subst hy <;>
        omega

theorem pd_straight_case (c : Coord) (L : Nat) (hL : 1 ≤ L) (dx dy : Int)
    (h : (dx = 0 ∧ (dy = 1 ∨ dy = -1)) ∨ (dy = 0 ∧ (dx = 1 ∨ dx = -1))) :
    preciseDistance c ⟨c.x + (L : Int) * dx, c.y + (L : Int) * dy⟩ = ⟨(L : Int), 0⟩ := by
  have hL1 : (1 : Int) ≤ (L : Int) := by exact_mod_cast hL
  unfold preciseDistance
  simp only []
  rw [if_neg]
  · have ex : c.x - (c.x + (L : Int) * dx) = -((L : Int) * dx) := by ring
    have ey : c.y - (c.y + (L : Int) * dy) = -((L : Int) * dy) := by ring
    rw [ex, ey, abs_neg, abs_neg, abs_mul, abs_mul]
    have hab : |(L : Int)| = (L : Int) := abs_of_nonneg (by omega)
    rcases h with ⟨h1, h2⟩ | ⟨h1, h2⟩ <;> subst h1 <;>
      rcases h2 with h2 | h2 <;> subst h2 <;>
        rw [Rt2.mk.injEq] <;> constructor <;> simp [hab]
  · rintro ⟨h1, h2⟩
    rcases h with ⟨hz, -⟩ | ⟨hz, -⟩
    · subst hz
      omega
    · subst hz
      omega

/-- On the cells `jump` links — `L ≥ 1` steps along one of the eight
directions — `preciseDistance` is exactly `L·√2` (diagonal) or `L`
(straight). -/
theorem preciseDistance_cellAt (c : Coord) (d : Int) (L : Nat)
    (hd0 : 0 ≤ d) (hd8 : d < 8) (hL : 1 ≤ L) :
    preciseDistance c (cellAt c d L) =
      if directionIsDiagonal d then ⟨0, (L : Int)⟩ else ⟨(L : Int), 0⟩ := by
  interval_cases d
  case «0» =>
    rw [show directionIsDiagonal 0 = false from by decide,
      show cellAt c 0 L = ⟨c.x + (L : Int) * 0, c.y + (L : Int) * (-1)⟩ from by
        unfold cellAt; rw [show dirDelta 0 = (0, -1) from by decide]]
    simp only [Bool.false_eq_true, if_false]
    exact pd_straight_case c L hL 0 (-1) (Or.inl ⟨rfl, Or.inr rfl⟩)
  case «1» =>
    rw [show directionIsDiagonal 1 = true from by decide,
      show cellAt c 1 L = ⟨c.x + (L : Int) * 1, c.y + (L : Int) * (-1)⟩ from by
        unfold cellAt; rw [show dirDelta 1 = (1, -1) from by decide]]
    simp only [if_true]
    exact pd_diag_case c L hL 1 (-1) (Or.inl rfl) (Or.inr rfl)
  case «2» =>
    rw [show directionIsDiagonal 2 = false from by decide,
      show cellAt c 2 L = ⟨c.x + (L : Int) * 1, c.y + (L : Int) * 0⟩ from by
        unfold cellAt; rw [show dirDelta 2 = (1, 0) from by decide]]
    simp only [Bool.false_eq_true, if_false]
    exact pd_straight_case c L hL 1 0 (Or.inr ⟨rfl, Or.inl rfl⟩)
  case «3» =>
    rw [show directionIsDiagonal 3 = true from by decide,
      show cellAt c 3 L = ⟨c.x + (L : Int) * 1, c.y + (L : Int) * 1⟩ from by
        unfold cellAt; rw [show dirDelta 3 = (1, 1) from by decide]]
    simp only [if_true]
    exact pd_diag_case c L hL 1 1 (Or.inl rfl) (Or.inl rfl)
  case «4» =>
    rw [show directionIsDiagonal 4 = false from by decide,
      show cellAt c 4 L = ⟨c.x + (L : Int) * 0, c.y + (L : Int) * 1⟩ from by
        unfold cellAt; rw [show dirDelta 4 = (0, 1) from by decide]]
    simp only [Bool.false_eq_true, if_false]
    exact pd_straight_case c L hL 0 1 (Or.inl ⟨rfl, Or.inl rfl⟩)
  case «5» =>
    rw [show directionIsDiagonal 5 = true from by decide,
      show cellAt c 5 L = ⟨c.x + (L : Int) * (-1), c.y + (L : Int) * 1⟩ from by
        unfold cellAt; rw [show dirDelta 5 = (-1, 1) from by decide]]
    simp only [if_true]
    exact pd_diag_case c L hL (-1) 1 (Or.inr rfl) (Or.inl rfl)
  case «6» =>
    rw [show directionIsDiagonal 6 = false from by decide,
      show cellAt c 6 L = ⟨c.x + (L : Int) * (-1), c.y + (L : Int) * 0⟩ from by
        unfold cellAt; rw [show dirDelta 6 = (-1, 0) from by decide]]
    simp only [Bool.false_eq_true, if_false]
    exact pd_straight_case c L hL (-1) 0 (Or.inr ⟨rfl, Or.inr rfl⟩)
  case «7» =>
    rw [show directionIsDiagonal 7 = true from by decide,
      show cellAt c 7 L = ⟨c.x + (L : Int) * (-1), c.y + (L : Int) * (-1)⟩ from by
        unfold cellAt; rw [show dirDelta 7 = (-1, -1) from by decide]]
    simp only [if_true]
    exact pd_diag_case c L hL (-1) (-1) (Or.inr rfl) (Or.inr rfl)

/-- The `cameFrom` ancestry of a node, at a loop state with predecessor
map `cf`, closed set `cl` and g-scores `g`: the list `[n, p₁, …, startIdx]`
of nodes from `n` back to the start, where every link points to a closed
parent through a `jump`-produced ray and strictly increases the g-score. -/
inductive Chain (grid : Grid) (bounds : Coord) (endIdx startIdx : Int)
    (cf : Int → Int) (cl : Int → Bool) (g : Int → Rt2) : Int → List Int → Prop
  | base : Chain grid bounds endIdx startIdx cf cl g startIdx [startIdx]
  | cons (p n : Int) (l : List Int) :
      Chain grid bounds endIdx startIdx cf cl g p l →
      cf n = p →
      cl p = true →
      RayLink grid bounds endIdx p n →
      Rt2.ltB (g p) (g n) = true →
      Chain grid bounds endIdx startIdx cf cl g n (n :: l)

theorem chain_head {grid bounds endIdx startIdx cf cl g} {n : Int} {l : List Int}
    (h : Chain grid bounds endIdx startIdx cf cl g n l) : ∃ l', l = n :: l' := by
  cases h with
  | base => exact ⟨[], rfl⟩
  | cons p n l' _ _ _ _ _ => exact ⟨l', rfl⟩

theorem chain_endpoint_walkable {grid bounds endIdx startIdx cf cl g} {n : Int} {l : List Int}
    (h : Chain grid bounds endIdx startIdx cf cl g n l) (hne : n ≠ startIdx) :
    isEnterable grid bounds (getCoord bounds n) = true := by
  cases h with
  | base => exact absurd rfl hne
  | cons p n l' hch hcf hcl hray hg =>
    obtain ⟨d, -, -, L, hL, hcoord, henter, -⟩ := hray
    rw [hcoord]
    exact henter L hL le_rfl

theorem chain_elem_cases {grid bounds endIdx startIdx cf cl g} {n : Int} {l : List Int}
    (h : Chain grid bounds endIdx startIdx cf cl g n l) :
    ∀ m ∈ l, m = n ∨ cl m = true ∨ m = startIdx := by
  induction h with
  | base => intro m hm; simp at hm; exact Or.inr (Or.inr hm)
  | cons p n l' hch hcf hcl hray hg IH =>
    intro m hm
    rcases List.mem_cons.mp hm with hm | hm
    · exact Or.inl hm
    · rcases IH m hm with h1 | h1 | h1
      · subst h1; exact Or.inr (Or.inl hcl)
      · exact Or.inr (Or.inl h1)
      · exact Or.inr (Or.inr h1)

theorem chain_gval {grid bounds endIdx startIdx cf cl g} {n : Int} {l : List Int}
    (h : Chain grid bounds endIdx startIdx cf cl g n l) :
    List.Chain' (fun a b => (g b).val < (g a).val) l := by
  induction h with
  | base => simp
  | cons p n l' hch hcf hcl hray hg IH =>
    obtain ⟨l'', rfl⟩ := chain_head hch
    exact List.Chain'.cons ((Rt2.ltB_iff _ _).mp hg) IH

theorem chain_nodup {grid bounds endIdx startIdx cf cl g} {n : Int} {l : List Int}
    (h : Chain grid bounds endIdx startIdx cf cl g n l) : l.Nodup := by
  have hc := chain_gval h
  have hinst : IsTrans Int (fun a b : Int => (g b).val < (g a).val) :=
    ⟨fun a b c h1 h2 => lt_trans h2 h1⟩
  have hp : List.Pairwise (fun a b : Int => (g b).val < (g a).val) l := by
    rw [← List.chain'_iff_pairwise]
    exact hc
  exact hp.imp (fun {a b} hab => by
    intro he
    subst he
    exact lt_irrefl _ hab)

theorem chain_mem_bounds {grid bounds endIdx startIdx cf cl g} {n : Int} {l : List Int}
    (hstart : 0 ≤ startIdx ∧ startIdx < bounds.x * bounds.y)
    (h : Chain grid bounds endIdx startIdx cf cl g n l) :
    ∀ m ∈ l, 0 ≤ m ∧ m < bounds.x * bounds.y := by
  induction h with
  | base =>
    intro m hm
    simp at hm
    subst hm
    exact hstart
  | cons p n l' hch hcf hcl hray hg IH =>
    intro m hm
    rcases List.mem_cons.mp hm with hm | hm
    · subst hm
      obtain ⟨d, -, -, L, hL, hcoord, henter, -⟩ := hray
      have he := henter L hL le_rfl
      simp only [isEnterable, Bool.and_eq_true] at he
      apply index_in_bounds_of_coord
      rw [hcoord]
      exact he.1
    · exact IH m hm

theorem chain_length_le {grid bounds endIdx startIdx cf cl g} {n : Int} {l : List Int}
    (hstart : 0 ≤ startIdx ∧ startIdx < bounds.x * bounds.y)
    (h : Chain grid bounds endIdx startIdx cf cl g n l) :
    l.length ≤ (bounds.x * bounds.y).toNat := by
  have hnd := chain_nodup h
  have hmem := chain_mem_bounds hstart h
  have hmap : (l.map Int.toNat).Nodup := by
    apply List.Nodup.map_on _ hnd
    intro x hx y hy hxy
    have hx' := hmem x hx
    have hy' := hmem y hy
    omega
  have hsub : (l.map Int.toNat).toFinset ⊆ Finset.range (bounds.x * bounds.y).toNat := by
    intro k hk
    rw [List.mem_toFinset] at hk
    obtain ⟨x, hx, rfl⟩ := List.mem_map.mp hk
    have := hmem x hx
    rw [Finset.mem_range]
    omega
  have hcard := Finset.card_le_card hsub
  rw [Finset.card_range, List.toFinset_card_of_nodup hmap] at hcard
  calc l.length = (l.map Int.toNat).length := by rw [List.length_map]
  _ ≤ (bounds.x * bounds.y).toNat := hcard

theorem chain_start_inv {grid bounds endIdx startIdx cf cl g} {l : List Int}
    (hcf : cf startIdx = -1) (hcl : cl (-1) = false)
    (h : Chain grid bounds endIdx startIdx cf cl g startIdx l) : l = [startIdx] := by
  cases h with
  | base => rfl
  | cons p n l' hch hcf' hcl' hray hg =>
    rw [hcf] at hcf'
    rw [← hcf'] at hcl'
    rw [hcl] at hcl'
    exact absurd hcl' (by simp)

theorem chain_cons_inv {grid bounds endIdx startIdx cf cl g} {n : Int} {l : List Int}
    (h : Chain grid bounds endIdx startIdx cf cl g n l) (hne : n ≠ startIdx) :
    ∃ l', l = n :: l' ∧ Chain grid bounds endIdx startIdx cf cl g (cf n) l' ∧
      cl (cf n) = true ∧ RayLink grid bounds endIdx (cf n) n ∧
      Rt2.ltB (g (cf n)) (g n) = true := by
  cases h with
  | base => exact absurd rfl hne
  | cons p n l' hch hcf hcl hray hg =>
    subst hcf
    exact ⟨l', rfl, hch, hcl, hray, hg⟩

theorem chain_stable {grid bounds endIdx startIdx cf cl g cf' cl' g'} {n : Int} {l : List Int}
    (h : Chain grid bounds endIdx startIdx cf cl g n l)
    (hcf : ∀ m ∈ l, cf' m = cf m)
    (hcl : ∀ m, cl m = true → cl' m = true)
    (hg : ∀ m ∈ l, g' m = g m) :
    Chain grid bounds endIdx startIdx cf' cl' g' n l := by
  induction h with
  | base => exact Chain.base
  | cons p n l' hch hcfn hcln hray hgn IH =>
    obtain ⟨l'', rfl⟩ := chain_head hch
    refine Chain.cons p n (p :: l'') ?_ ?_ ?_ hray ?_
    · apply IH
      · intro m hm
        exact hcf m (List.mem_cons_of_mem n hm)
      · intro m hm
        exact hg m (List.mem_cons_of_mem n hm)
    · rw [hcf n (List.mem_cons_self n _)]
      exact hcfn
    · exact hcl p hcln
    · rw [hg n (List.mem_cons_self n _), hg p (List.mem_cons_of_mem n (List.mem_cons_self p _))]
      exact hgn

theorem findMin_mem_aux :
    ∀ (q : Queue) (acc : Option (Int × Rt2)) (e : Int × Rt2),
      q.foldl (fun best e =>
        match best with
        | none => some e
        | some b => if Rt2.ltB e.2 b.2 then some e else some b) acc = some e →
      acc = some e ∨ e ∈ q := by
  intro q
  induction q with
  | nil => intro acc e h; exact Or.inl h
  | cons a q IH =>
    intro acc e h
    rcases IH _ e h with h1 | h1
    · match acc with
      | none =>
        simp at h1
        subst h1
        exact Or.inr (List.mem_cons_self _ _)
      | some b =>
        simp only [] at h1
        by_cases hlt : Rt2.ltB a.2 b.2 = true
        · rw [if_pos hlt] at h1
          cases h1
          exact Or.inr (List.mem_cons_self _ _)
        · rw [if_neg hlt] at h1
          exact Or.inl h1
    · exact Or.inr (List.mem_cons_of_mem _ h1)

theorem findMin_mem {q : Queue} {e : Int × Rt2} (h : findMin q = some e) : e ∈ q := by
  unfold findMin at h
  rcases findMin_mem_aux q none e h with h1 | h1
  · exact absurd h1 (by simp)
  · exact h1

theorem map_fst_changePriority (q : Queue) (v : Int) (p : Rt2) :
    (changePriority q v p).map Prod.fst = q.map Prod.fst := by
  unfold changePriority
  induction q with
  | nil => rfl
  | cons a q IH =>
    simp only [List.map_cons, List.map_map] at *
    by_cases h : a.1 = v
    · simp [h, IH]
    · simp [h, IH]

theorem existsInQueue_iff (q : Queue) (v : Int) :
    existsInQueue q v = true ↔ v ∈ q.map Prod.fst := by
  unfold existsInQueue
  rw [List.any_eq_true]
  constructor
  · rintro ⟨e, he, hev⟩
    rw [decide_eq_true_eq] at hev
    exact List.mem_map.mpr ⟨e, he, hev⟩
  · intro h
    obtain ⟨e, he, hev⟩ := List.mem_map.mp h
    exact ⟨e, he, by rw [decide_eq_true_eq]; exact hev⟩

/-- The invariant of `astar_compute`'s main loop.  `chains` is the heart:
every node that has ever been reached (closed or in the open queue) has a
well-formed `cameFrom` ancestry. -/
structure LoopInv (grid : Grid) (bounds : Coord) (startIdx endIdx : Int)
    (st : SearchState) : Prop where
  open_nodup : (st.openQ.map Prod.fst).Nodup
  open_mem : ∀ pr ∈ st.openQ, (0 ≤ pr.1 ∧ pr.1 < bounds.x * bounds.y) ∧
      st.closed pr.1 = false
  closed_mem : ∀ m, st.closed m = true →
      (0 ≤ m ∧ m < bounds.x * bounds.y) ∧ getCoord bounds m ≠ getCoord bounds endIdx
  cf_start : st.cameFrom startIdx = -1
  start_known : st.closed startIdx = true ∨
      (st.openQ.map Prod.fst = [startIdx] ∧ ∀ m, st.closed m = false)
  chains : ∀ m, (st.closed m = true ∨ m ∈ st.openQ.map Prod.fst) →
      ∃ l, Chain grid bounds endIdx startIdx st.cameFrom st.closed st.gScores m l

theorem Rt2.ltB_add_pos (x p : Rt2) (hp : 0 < p.val) : Rt2.ltB x (x + p) = true := by
  rw [Rt2.ltB_iff, Rt2.val_add]
  linarith

theorem rayLink_pd_pos {grid bounds endIdx p n}
    (h : RayLink grid bounds endIdx p n) :
    0 < (preciseDistance (getCoord bounds p) (getCoord bounds n)).val := by
  obtain ⟨d, hd0, hd8, L, hL, hcoord, -, -⟩ := h
  rw [hcoord, preciseDistance_cellAt _ d L hd0 hd8 hL]
  have hL1 : (1 : ℝ) ≤ (L : ℝ) := by exact_mod_cast hL
  by_cases hdiag : directionIsDiagonal d = true
  · rw [if_pos hdiag]
    unfold Rt2.val
    simp only []
    have hs : (1 : ℝ) ≤ Real.sqrt 2 := by
      nlinarith [Real.sq_sqrt (show (0:ℝ) ≤ 2 by norm_num), Real.sqrt_nonneg 2]
    push_cast
    nlinarith
  · rw [if_neg hdiag]
    unfold Rt2.val
    simp only []
    push_cast
    nlinarith

theorem mem_map_fst {q : Queue} {v : Int} (h : v ∈ q.map Prod.fst) :
    ∃ p, (v, p) ∈ q := by
  obtain ⟨e, he, hev⟩ := List.mem_map.mp h
  exact ⟨e.2, by rw [← hev]; exact he⟩

theorem map_fst_insert (q : Queue) (v : Int) (p : Rt2) :
    (insert q v p).map Prod.fst = q.map Prod.fst ++ [v] := by
  show (q ++ [(v, p)]).map Prod.fst = q.map Prod.fst ++ [v]
  rw [List.map_append]
  rfl

theorem mem_changePriority {q : Queue} {v : Int} {p : Rt2} {pr : Int × Rt2}
    (h : pr ∈ changePriority q v p) : ∃ e ∈ q, pr.1 = e.1 := by
  unfold changePriority at h
  obtain ⟨e, he, hev⟩ := List.mem_map.mp h
  refine ⟨e, he, ?_⟩
  by_cases h1 : e.1 = v
  · rw [if_pos h1] at hev
    rw [← hev]
  · rw [if_neg h1] at hev
    rw [← hev]

theorem upd_self {α : Type} (f : Int → α) (i : Int) (v : α) : upd f i v i = v := by
  unfold upd
  rw [if_pos rfl]

theorem upd_ne {α : Type} (f : Int → α) (i : Int) (v : α) {j : Int} (h : j ≠ i) :
    upd f i v j = f j := by
  unfold upd
  rw [if_neg h]

/-- One pass of the direction loop of `astar_compute` preserves the loop
invariant and leaves the closed set untouched. -/
theorem innerBody_inv (grid : Grid) (bounds : Coord) (startIdx endIdx : Int)
    (endCoord : Coord) (node : Int) (fromDir : Int) (st : SearchState) (i : Int)
    (hi0 : 0 ≤ i) (hi8 : i < 8)
    (hnode : st.closed node = true)
    (hstartcl : st.closed startIdx = true)
    (hinv : LoopInv grid bounds startIdx endIdx st) :
    LoopInv grid bounds startIdx endIdx
      (innerBody grid bounds endIdx endCoord node (getCoord bounds node) fromDir st i) ∧
    (innerBody grid bounds endIdx endCoord node (getCoord bounds node) fromDir st i).closed =
      st.closed := by
  simp only [innerBody]
  by_cases h1 : (! isOptimalTurn i fromDir) = true
  · rw [if_pos h1]
    exact ⟨hinv, rfl⟩
  · rw [if_neg h1]
    by_cases h2 : (! contained bounds (getCoord bounds (jump grid bounds endIdx i node))) = true
    · rw [if_pos h2]
      exact ⟨hinv, rfl⟩
    · rw [if_neg h2]
      have hcont : contained bounds (getCoord bounds (jump grid bounds endIdx i node)) = true := by
        rcases Bool.eq_false_or_eq_true
            (contained bounds (getCoord bounds (jump grid bounds endIdx i node))) with h | h
        · exact h
        · exact absurd (by rw [h]; rfl) h2
      set newNode := jump grid bounds endIdx i node with hnewNode
      have hnn_b : 0 ≤ newNode ∧ newNode < bounds.x * bounds.y :=
        index_in_bounds_of_coord bounds newNode hcont
      have hray : RayLink grid bounds endIdx node newNode :=
        jump_ray grid bounds endIdx i node newNode hi0 hi8 rfl hnn_b.1
      by_cases h3 : st.closed newNode = true
      · rw [if_pos h3]
        exact ⟨hinv, rfl⟩
      · rw [if_neg h3]
        have hncl : st.closed newNode = false := by
          rcases Bool.eq_false_or_eq_true (st.closed newNode) with h | h
          · exact absurd h h3
          · exact h
        have hne_node : newNode ≠ node := by
          intro h
          rw [h, hnode] at hncl
          exact absurd hncl (by simp)
        have hne_start : newNode ≠ startIdx := by
          intro h
          rw [h, hstartcl] at hncl
          exact absurd hncl (by simp)
        have hgpos : 0 < (preciseDistance (getCoord bounds node)
            (getCoord bounds newNode)).val := rayLink_pd_pos hray
        obtain ⟨lnode, hlnode⟩ := hinv.chains node (Or.inl hnode)
        have hlnode_elems := chain_elem_cases hlnode
        have hnn_notin : ∀ m ∈ lnode, m ≠ newNode := by
          intro m hm hmeq
          subst hmeq
          rcases hlnode_elems _ hm with h | h | h
          · exact hne_node h
          · rw [h] at hncl
            exact absurd hncl (by simp)
          · exact hne_start h
        have hchainNew : Chain grid bounds endIdx startIdx
            (upd st.cameFrom newNode node) st.closed
            (upd st.gScores newNode (st.gScores node +
              preciseDistance (getCoord bounds node) (getCoord bounds newNode)))
            newNode (newNode :: lnode) := by
          refine Chain.cons node newNode lnode ?_ ?_ hnode hray ?_
          · apply chain_stable hlnode
            · intro x hx
              exact upd_ne _ _ _ (hnn_notin x hx)
            · exact fun x h => h
            · intro x hx
              exact upd_ne _ _ _ (hnn_notin x hx)
          · exact upd_self _ _ _
          · rw [upd_self, upd_ne _ _ _ (Ne.symm hne_node)]
            exact Rt2.ltB_add_pos _ _ hgpos
        have hchainOld : ∀ m, m ≠ newNode →
            (st.closed m = true ∨ m ∈ st.openQ.map Prod.fst) →
            ∃ l, Chain grid bounds endIdx startIdx
              (upd st.cameFrom newNode node) st.closed
              (upd st.gScores newNode (st.gScores node +
                preciseDistance (getCoord bounds node) (getCoord bounds newNode))) m l := by
          intro m hmne hknown
          obtain ⟨lm, hlm⟩ := hinv.chains m hknown
          have hnotin : ∀ x ∈ lm, x ≠ newNode := by
            intro x hx hxeq
            subst hxeq
            rcases chain_elem_cases hlm _ hx with h | h | h
            · exact hmne h.symm
            · rw [h] at hncl
              exact absurd hncl (by simp)
            · exact hne_start h
          refine ⟨lm, chain_stable hlm ?_ (fun x h => h) ?_⟩
          · intro x hx
            exact upd_ne _ _ _ (hnotin x hx)
          · intro x hx
            exact upd_ne _ _ _ (hnotin x hx)
        have hcf_start : upd st.cameFrom newNode node startIdx = -1 := by
          rw [upd_ne _ _ _ (Ne.symm hne_start)]
          exact hinv.cf_start
        by_cases h4 : (! existsInQueue st.openQ newNode) = true
        · rw [if_pos h4]
          have hnex : newNode ∉ st.openQ.map Prod.fst := by
            intro hmem
            have := (existsInQueue_iff st.openQ newNode).mpr hmem
            rw [this] at h4
            exact absurd h4 (by simp)
          refine ⟨⟨?_, ?_, ?_, hcf_start, Or.inl hstartcl, ?_⟩, rfl⟩
          · show ((insert st.openQ newNode _).map Prod.fst).Nodup
            rw [map_fst_insert, List.nodup_append]
            refine ⟨hinv.open_nodup, List.nodup_singleton _, ?_⟩
            intro a ha hb
            rw [List.mem_singleton] at hb
            subst hb
            exact hnex ha
          · intro pr hpr
            rcases List.mem_append.mp hpr with hpr | hpr
            · exact hinv.open_mem pr hpr
            · rw [List.mem_singleton] at hpr
              subst hpr
              exact ⟨hnn_b, hncl⟩
          · exact hinv.closed_mem
          · intro m hm
            have hm' : st.closed m = true ∨ m ∈ (insert st.openQ newNode
                (st.gScores node + preciseDistance (getCoord bounds node)
                  (getCoord bounds newNode) +
                  estimateDistance (getCoord bounds newNode) endCoord)).map Prod.fst := hm
            rw [map_fst_insert] at hm'
            by_cases hmn : m = newNode
            · subst hmn
              exact ⟨newNode :: lnode, hchainNew⟩
            · apply hchainOld m hmn
              rcases hm' with h | h
              · exact Or.inl h
              · rcases List.mem_append.mp h with h | h
                · exact Or.inr h
                · rw [List.mem_singleton] at h
                  exact absurd h hmn
        · rw [if_neg h4]
          by_cases h5 : Rt2.ltB (st.gScores node + preciseDistance (getCoord bounds node)
              (getCoord bounds newNode)) (st.gScores newNode) = true
          · rw [if_pos h5]
            refine ⟨⟨?_, ?_, ?_, hcf_start, Or.inl hstartcl, ?_⟩, rfl⟩
            · show ((changePriority st.openQ newNode _).map Prod.fst).Nodup
              rw [map_fst_changePriority]
              exact hinv.open_nodup
            · intro pr hpr
              obtain ⟨e, he, hfst⟩ := mem_changePriority hpr
              rw [hfst]
              exact hinv.open_mem e he
            · exact hinv.closed_mem
            · intro m hm
              have hm' : st.closed m = true ∨ m ∈ (changePriority st.openQ newNode
                  ((priorityOf st.openQ newNode -
                    Rt2.ofInt (Rt2.truncI (st.gScores newNode))) +
                    (st.gScores node + preciseDistance (getCoord bounds node)
                      (getCoord bounds newNode)))).map Prod.fst := hm
              rw [map_fst_changePriority] at hm'
              by_cases hmn : m = newNode
              · subst hmn
                exact ⟨newNode :: lnode, hchainNew⟩
              · exact hchainOld m hmn hm'
          · rw [if_neg h5]
            exact ⟨hinv, rfl⟩

theorem ray_len_bound {bounds : Coord} {cp : Coord} {d : Int} {L : Nat}
    (hd : dirDelta d ≠ (0, 0)) (hL : 1 ≤ L)
    (h1 : contained bounds (cellAt cp d 1) = true)
    (hLc : contained bounds (cellAt cp d L) = true) :
    L ≤ bounds.x.toNat + bounds.y.toNat := by
  rw [contained_iff] at h1 hLc
  unfold cellAt at h1 hLc
  simp only [] at h1 hLc
  rcases dirDelta_cases d with h | h | h | h | h | h | h | h | h <;>
    [skip; skip; skip; skip; skip; skip; skip; skip; exact absurd h hd] <;>
    rw [h] at h1 hLc <;>
      norm_num at h1 hLc <;>
        omega

/-- The full direction loop preserves the invariant and the closed set. -/
theorem foldl_innerBody_inv (grid : Grid) (bounds : Coord) (startIdx endIdx : Int)
    (endCoord : Coord) (node fromDir : Int) :
    ∀ (ds : List Int), (∀ d ∈ ds, 0 ≤ d ∧ d < 8) → ∀ (st : SearchState),
      st.closed node = true → st.closed startIdx = true →
      LoopInv grid bounds startIdx endIdx st →
      LoopInv grid bounds startIdx endIdx
        (ds.foldl (innerBody grid bounds endIdx endCoord node (getCoord bounds node) fromDir)
          st) ∧
      (ds.foldl (innerBody grid bounds endIdx endCoord node (getCoord bounds node) fromDir)
          st).closed = st.closed := by
  intro ds
  induction ds with
  | nil =>
    intro _ st _ _ hinv
    exact ⟨hinv, rfl⟩
  | cons d ds IH =>
    intro hds st hnode hstart hinv
    have hd := hds d (List.mem_cons_self d ds)
    obtain ⟨hinv1, hcl1⟩ := innerBody_inv grid bounds startIdx endIdx endCoord node fromDir st d
      hd.1 hd.2 hnode hstart hinv
    rw [List.foldl_cons]
    obtain ⟨hinv2, hcl2⟩ := IH (fun x hx => hds x (List.mem_cons_of_mem d hx))
      _ (by rw [hcl1]; exact hnode) (by rw [hcl1]; exact hstart) hinv1
    exact ⟨hinv2, by rw [hcl2, hcl1]⟩

theorem queue_perm_cons_erase {q : Queue} {e : Int × Rt2} (h : e ∈ q) :
    q.Perm (e :: q.erase e) := by
  induction q with
  | nil => simp at h
  | cons a q IH =>
    by_cases hae : a = e
    · subst hae
      have hh : (a :: q).erase a = q := by
        rw [List.erase_cons]
        simp
      rw [hh]
    · have h1 : e ∈ q := by
        rcases List.mem_cons.mp h with h1 | h1
        · exact absurd h1.symm hae
        · exact h1
      have hh : (a :: q).erase e = a :: q.erase e := by
        rw [List.erase_cons]
        simp [hae]
      rw [hh]
      exact ((IH h1).cons a).trans (List.Perm.swap e a _)

/-- One continuing iteration of the main loop preserves the invariant and
closes exactly one previously open node. -/
theorem astarStep_inv (grid : Grid) (bounds : Coord) (startIdx endIdx : Int)
    (rsFuel : Nat) (st st2 : SearchState)
    (hinv : LoopInv grid bounds startIdx endIdx st)
    (hstep : astarStep grid bounds startIdx endIdx (getCoord bounds endIdx) rsFuel st =
      Sum.inr st2) :
    LoopInv grid bounds startIdx endIdx st2 ∧
    ∃ node, st.closed node = false ∧ st2.closed = upd st.closed node true ∧
      node ∈ st.openQ.map Prod.fst := by
  simp only [astarStep] at hstep
  rcases hfm : findMin st.openQ with _ | e
  · rw [hfm] at hstep
    exact Sum.noConfusion hstep
  · rw [hfm] at hstep
    simp only [] at hstep
    by_cases hgoal : getCoord bounds e.1 = getCoord bounds endIdx
    · rw [if_pos hgoal] at hstep
      exact Sum.noConfusion hstep
    · rw [if_neg hgoal] at hstep
      have he : e ∈ st.openQ := findMin_mem hfm
      have heid : e.1 ∈ st.openQ.map Prod.fst := List.mem_map.mpr ⟨e, he, rfl⟩
      obtain ⟨heb, hecl⟩ := hinv.open_mem e he
      have hperm : st.openQ.Perm (e :: st.openQ.erase e) := queue_perm_cons_erase he
      have hpermf : (st.openQ.map Prod.fst).Perm
          (e.1 :: (st.openQ.erase e).map Prod.fst) := by
        have := hperm.map Prod.fst
        simpa using this
      have hnd' : (e.1 :: (st.openQ.erase e).map Prod.fst).Nodup :=
        (hpermf.nodup_iff).mp hinv.open_nodup
      have hnd_tail : ((st.openQ.erase e).map Prod.fst).Nodup := (List.nodup_cons.mp hnd').2
      have hnotin : e.1 ∉ (st.openQ.erase e).map Prod.fst := (List.nodup_cons.mp hnd').1
      set st1 : SearchState :=
        { openQ := deleteMin st.openQ, closed := upd st.closed e.1 true,
          gScores := st.gScores, cameFrom := st.cameFrom } with hst1
      have hdel : st1.openQ = st.openQ.erase e := by
        show deleteMin st.openQ = st.openQ.erase e
        unfold deleteMin
        rw [hfm]
      have hst1cl : st1.closed startIdx = true := by
        rcases hinv.start_known with h | ⟨hids, hall⟩
        · show upd st.closed e.1 true startIdx = true
          by_cases hteq : startIdx = e.1
          · rw [hteq, upd_self]
          · rw [upd_ne _ _ _ hteq]
            exact h
        · have : e.1 = startIdx := by
            rw [hids] at heid
            exact List.mem_singleton.mp heid
          rw [← this]
          show upd st.closed e.1 true e.1 = true
          rw [upd_self]
      have hinv1 : LoopInv grid bounds startIdx endIdx st1 := by
        refine ⟨?_, ?_, ?_, hinv.cf_start, Or.inl hst1cl, ?_⟩
        · show (st1.openQ.map Prod.fst).Nodup
          rw [hdel]
          exact hnd_tail
        · intro pr hpr
          rw [hdel] at hpr
          have hpr' : pr ∈ st.openQ := List.mem_of_mem_erase hpr
          refine ⟨(hinv.open_mem pr hpr').1, ?_⟩
          have hprne : pr.1 ≠ e.1 := by
            intro hcontra
            exact hnotin (hcontra ▸ List.mem_map.mpr ⟨pr, hpr, rfl⟩)
          show upd st.closed e.1 true pr.1 = false
          rw [upd_ne _ _ _ hprne]
          exact (hinv.open_mem pr hpr').2
        · intro m hm
          by_cases hme : m = e.1
          · subst hme
            exact ⟨heb, hgoal⟩
          · have hm' : st.closed m = true := by
              rw [show st1.closed m = st.closed m from upd_ne _ _ _ hme] at hm
              exact hm
            exact hinv.closed_mem m hm'
        · intro m hm
          have hold : st.closed m = true ∨ m ∈ st.openQ.map Prod.fst := by
            rcases hm with hm | hm
            · by_cases hme : m = e.1
              · exact Or.inr (hme ▸ heid)
              · rw [show st1.closed m = st.closed m from upd_ne _ _ _ hme] at hm
                exact Or.inl hm
            · right
              rw [hdel] at hm
              obtain ⟨pr, hpr, hprf⟩ := List.mem_map.mp hm
              exact List.mem_map.mpr ⟨pr, List.mem_of_mem_erase hpr, hprf⟩
          obtain ⟨l, hl⟩ := hinv.chains m hold
          refine ⟨l, chain_stable hl (fun x _ => rfl) ?_ (fun x _ => rfl)⟩
          intro x hx
          show upd st.closed e.1 true x = true
          by_cases hxe : x = e.1
          · rw [hxe, upd_self]
          · rw [upd_ne _ _ _ hxe]
            exact hx
      have hst1nd : st1.closed e.1 = true := by
        show upd st.closed e.1 true e.1 = true
        rw [upd_self]
      obtain ⟨hinv2, hcl2⟩ := foldl_innerBody_inv grid bounds startIdx endIdx
        (getCoord bounds endIdx) e.1
        (directionWeCameFrom bounds e.1 (st.cameFrom e.1)) dirRange
        (by decide) st1 hst1nd hst1cl hinv1
      cases hstep
      refine ⟨hinv2, e.1, hecl, ?_, heid⟩
      rw [hcl2]

theorem nextNode_self (bounds : Coord) (cf : Int → Int) (i : Int) :
    nextNodeInSolution bounds cf i i = (i, cf i) := by
  simp only [nextNodeInSolution, lt_self_iff_false, if_false]
  rw [show (⟨(getCoord bounds i).x, (getCoord bounds i).y⟩ : Coord) = getCoord bounds i from rfl]
  rw [getIndex_getCoord, if_pos rfl]

theorem nextNode_on_ray (bounds : Coord) (cf : Int → Int) (p i : Int) (d : Int) (j : Nat)
    (hj : 1 ≤ j)
    (hi : getCoord bounds i = cellAt (getCoord bounds p) d j) :
    nextNodeInSolution bounds cf p i =
      (getIndex bounds (cellAt (getCoord bounds p) d (j - 1)),
       if getIndex bounds (cellAt (getCoord bounds p) d (j - 1)) = p then cf p
       else p) := by
  simp only [nextNodeInSolution, hi]
  have hkey : (⟨if (cellAt (getCoord bounds p) d j).x < (getCoord bounds p).x then
        (cellAt (getCoord bounds p) d j).x + 1
      else if (getCoord bounds p).x < (cellAt (getCoord bounds p) d j).x then
        (cellAt (getCoord bounds p) d j).x - 1
      else (cellAt (getCoord bounds p) d j).x,
      if (cellAt (getCoord bounds p) d j).y < (getCoord bounds p).y then
        (cellAt (getCoord bounds p) d j).y + 1
      else if (getCoord bounds p).y < (cellAt (getCoord bounds p) d j).y then
        (cellAt (getCoord bounds p) d j).y - 1
      else (cellAt (getCoord bounds p) d j).y⟩ : Coord) =
      cellAt (getCoord bounds p) d (j - 1) := by
    unfold cellAt
    rcases dirDelta_cases d with h | h | h | h | h | h | h | h | h <;>
      rw [h] <;> simp only [] <;> rw [Coord.mk.injEq] <;>
        constructor <;> split_ifs <;> push_cast <;> omega
  rw [hkey]

theorem nextNode_on_ray_fst (bounds : Coord) (cf : Int → Int) (p i : Int) (d : Int) (j : Nat)
    (hj : 1 ≤ j)
    (hi : getCoord bounds i = cellAt (getCoord bounds p) d j) :
    (nextNodeInSolution bounds cf p i).1 =
      getIndex bounds (cellAt (getCoord bounds p) d (j - 1)) := by
  rw [nextNode_on_ray bounds cf p i d j hj hi]

theorem nextNode_on_ray_snd (bounds : Coord) (cf : Int → Int) (p i : Int) (d : Int) (j : Nat)
    (hj : 1 ≤ j)
    (hi : getCoord bounds i = cellAt (getCoord bounds p) d j) :
    (nextNodeInSolution bounds cf p i).2 =
      if getIndex bounds (cellAt (getCoord bounds p) d (j - 1)) = p then cf p
      else p := by
  rw [nextNode_on_ray bounds cf p i d j hj hi]

theorem cellAt_step_props (cp : Coord) (d : Int) (j : Nat)
    (hd : dirDelta d ≠ (0, 0)) (hj : 1 ≤ j) :
    cellAt cp d j ≠ cellAt cp d (j - 1) ∧
    |(cellAt cp d j).x - (cellAt cp d (j - 1)).x| ≤ 1 ∧
    |(cellAt cp d j).y - (cellAt cp d (j - 1)).y| ≤ 1 := by
  unfold cellAt
  rcases dirDelta_cases d with h | h | h | h | h | h | h | h | h <;>
    [skip; skip; skip; skip; skip; skip; skip; skip; exact absurd h hd] <;>
    rw [h] <;> simp only [] <;>
    refine ⟨?_, ?_, ?_⟩ <;>
    first
      | (intro hc; rw [Coord.mk.injEq] at hc; push_cast at hc; omega)
      | (rw [abs_le]; constructor <;> push_cast <;> omega)

theorem cellAt_inj_ne (cp : Coord) (d : Int) (hd : dirDelta d ≠ (0, 0)) {j k : Nat}
    (hjk : j ≠ k) : cellAt cp d j ≠ cellAt cp d k := by
  unfold cellAt
  rcases dirDelta_cases d with h | h | h | h | h | h | h | h | h <;>
    [skip; skip; skip; skip; skip; skip; skip; skip; exact absurd h hd] <;>
    rw [h] <;> intro hc <;> rw [Coord.mk.injEq] at hc <;> push_cast at hc <;> omega

theorem stepOK_ray (bounds : Coord) (a b : Int) (cp : Coord) (d : Int) (j : Nat)
    (hd : dirDelta d ≠ (0, 0)) (hj : 1 ≤ j)
    (ha : getCoord bounds a = cellAt cp d j)
    (hb : getCoord bounds b = cellAt cp d (j - 1)) :
    stepOK bounds a b = true := by
  have hp := cellAt_step_props cp d j hd hj
  simp only [stepOK]
  rw [ha, hb, decide_eq_true_eq]
  exact ⟨hp.1, hp.2.1, hp.2.2⟩

/-- The walk of `recordSolution` succeeds along any `cameFrom` chain: from
a cell `j ≥ 1` ray steps above the target `p`, the loop reaches `startIdx`
and emits walkable, goal-free, start-free cells until its final element
`startIdx`, consecutive emissions being 8-neighbour steps. -/
theorem walk_chain {grid : Grid} {bounds : Coord} {endIdx startIdx : Int}
    {cf : Int → Int} {cl : Int → Bool} {g : Int → Rt2}
    (hcl_end : ∀ m, cl m = true → getCoord bounds m ≠ getCoord bounds endIdx)
    (hstart_cont : contained bounds (getCoord bounds startIdx) = true) :
    ∀ (fuel : Nat) (p : Int) (l : List Int),
      Chain grid bounds endIdx startIdx cf cl g p l →
      (p = startIdx ∨ cl p = true) →
      ∀ (d : Int) (L j : Nat) (i : Int) (acc : List Int),
        dirDelta d ≠ (0, 0) → 1 ≤ j → j ≤ L →
        i = getIndex bounds (cellAt (getCoord bounds p) d j) →
        (∀ k : Nat, 1 ≤ k → k ≤ L →
          isEnterable grid bounds (cellAt (getCoord bounds p) d k) = true) →
        (∀ k : Nat, 1 ≤ k → k < L →
          getIndex bounds (cellAt (getCoord bounds p) d k) ≠ endIdx) →
        j + (bounds.x.toNat + bounds.y.toNat) * l.length ≤ fuel →
        ∃ out, recordLoop bounds cf startIdx fuel p i acc = some (acc ++ out) ∧
          out ≠ [] ∧ out.getLast? = some startIdx ∧
          (∀ c ∈ out.dropLast, isEnterable grid bounds (getCoord bounds c) = true ∧
            c ≠ startIdx ∧ c ≠ endIdx) ∧
          List.Chain' (fun a b => stepOK bounds a b = true) (i :: out) := by
  intro fuel
  induction fuel with
  | zero =>
    intro p l hch hdich d L j i acc hd hj1 hjL hi henter hnotend hfuel
    omega
  | succ f IH =>
    intro p l hch hdich d L j i acc hd hj1 hjL hi henter hnotend hfuel
    have hcell_j : isEnterable grid bounds (cellAt (getCoord bounds p) d j) = true :=
      henter j hj1 hjL
    have hcont_j : contained bounds (cellAt (getCoord bounds p) d j) = true := by
      simp only [isEnterable, Bool.and_eq_true] at hcell_j
      exact hcell_j.1
    have hi_coord : getCoord bounds i = cellAt (getCoord bounds p) d j := by
      rw [hi]
      exact getCoord_getIndex _ _ hcont_j
    have hcontp : contained bounds (getCoord bounds p) = true := by
      by_cases hps : p = startIdx
      · rw [hps]
        exact hstart_cont
      · have hw := chain_endpoint_walkable hch hps
        simp only [isEnterable, Bool.and_eq_true] at hw
        exact hw.1
    simp only [recordLoop]
    rw [nextNode_on_ray_fst bounds cf p i d j hj1 hi_coord,
      nextNode_on_ray_snd bounds cf p i d j hj1 hi_coord]
    by_cases hj2 : j = 1
    · subst hj2
      have h0 : getIndex bounds (cellAt (getCoord bounds p) d (1 - 1)) = p := by
        rw [show (1 - 1 : Nat) = 0 from rfl, cellAt_zero, getIndex_getCoord]
      rw [h0, if_pos rfl]
      have hstep_ip : stepOK bounds i p = true := by
        refine stepOK_ray bounds i p (getCoord bounds p) d 1 hd le_rfl hi_coord ?_
        rw [show (1 - 1 : Nat) = 0 from rfl, cellAt_zero]
      by_cases hps : p = startIdx
      · rw [if_pos hps]
        refine ⟨[p], rfl, by simp, by simp [hps], by simp, ?_⟩
        exact List.chain'_cons.mpr ⟨hstep_ip, by simp⟩
      · rw [if_neg hps]
        obtain ⟨l', hl_eq, hch', hclq, hrayq, -⟩ := chain_cons_inv hch hps
        obtain ⟨d', hd'0, hd'8, L', hL', hcoordp, henter', hnotend'⟩ := hrayq
        have hd' : dirDelta d' ≠ (0, 0) := dirDelta_ne_zero hd'0
        have hL'b : L' ≤ bounds.x.toNat + bounds.y.toNat := by
          refine @ray_len_bound bounds (getCoord bounds (cf p)) d' L' hd' hL' ?_ ?_
          · have hw := henter' 1 le_rfl hL'
            simp only [isEnterable, Bool.and_eq_true] at hw
            exact hw.1
          · have hw := henter' L' hL' le_rfl
            simp only [isEnterable, Bool.and_eq_true] at hw
            exact hw.1
        have hif : p = getIndex bounds (cellAt (getCoord bounds (cf p)) d' L') := by
          rw [← hcoordp, getIndex_getCoord]
        have hfuel' : L' + (bounds.x.toNat + bounds.y.toNat) * l'.length ≤ f := by
          subst hl_eq
          simp only [List.length_cons] at hfuel
          have : (bounds.x.toNat + bounds.y.toNat) * (l'.length + 1) =
              (bounds.x.toNat + bounds.y.toNat) * l'.length +
                (bounds.x.toNat + bounds.y.toNat) := by ring
          omega
        obtain ⟨out', heq', hne', hlast', hcells', hchain'⟩ := IH (cf p) l' hch'
          (Or.inr hclq) d' L' L' p (acc ++ [p]) hd' hL' le_rfl hif henter' hnotend' hfuel'
        obtain ⟨h', t', rfl⟩ := List.exists_cons_of_ne_nil hne'
        have hp_end : p ≠ endIdx := by
          intro hpe
          rcases hdich with h | h
          · exact hps h
          · exact hcl_end p h (by rw [hpe])
        refine ⟨p :: h' :: t', ?_, by simp, ?_, ?_, ?_⟩
        · rw [heq']
          simp
        · rw [List.getLast?_cons_cons]
          exact hlast'
        · intro c hc
          rw [List.dropLast_cons₂] at hc
          rcases List.mem_cons.mp hc with hc | hc
          · subst hc
            exact ⟨chain_endpoint_walkable hch hps, hps, hp_end⟩
          · exact hcells' c hc
        · exact List.chain'_cons.mpr ⟨hstep_ip, hchain'⟩
    · have hj1' : 1 ≤ j - 1 := by omega
      have hcell_j1 : isEnterable grid bounds (cellAt (getCoord bounds p) d (j - 1)) = true :=
        henter (j - 1) hj1' (by omega)
      have hcont_j1 : contained bounds (cellAt (getCoord bounds p) d (j - 1)) = true := by
        simp only [isEnterable, Bool.and_eq_true] at hcell_j1
        exact hcell_j1.1
      have hn2_coord : getCoord bounds
          (getIndex bounds (cellAt (getCoord bounds p) d (j - 1))) =
          cellAt (getCoord bounds p) d (j - 1) := getCoord_getIndex _ _ hcont_j1
      have hne_p : getIndex bounds (cellAt (getCoord bounds p) d (j - 1)) ≠ p := by
        intro hc
        have hcoords : cellAt (getCoord bounds p) d (j - 1) = getCoord bounds p := by
          rw [← hn2_coord, hc]
        have := cellAt_inj_ne (getCoord bounds p) d hd (show j - 1 ≠ 0 by omega)
        rw [cellAt_zero] at this
        exact this hcoords
      have hstep_in2 : stepOK bounds i
          (getIndex bounds (cellAt (getCoord bounds p) d (j - 1))) = true :=
        stepOK_ray bounds i _ (getCoord bounds p) d j hd hj1 hi_coord hn2_coord
      rw [if_neg hne_p]
      by_cases hns : getIndex bounds (cellAt (getCoord bounds p) d (j - 1)) = startIdx
      · rw [if_pos hns]
        refine ⟨[getIndex bounds (cellAt (getCoord bounds p) d (j - 1))], rfl, by simp,
          by simp [hns], by simp, ?_⟩
        exact List.chain'_cons.mpr ⟨hstep_in2, by simp⟩
      · rw [if_neg hns]
        have hfuel' : (j - 1) + (bounds.x.toNat + bounds.y.toNat) * l.length ≤ f := by
          omega
        obtain ⟨out', heq', hne', hlast', hcells', hchain'⟩ := IH p l hch hdich d L (j - 1)
          (getIndex bounds (cellAt (getCoord bounds p) d (j - 1)))
          (acc ++ [getIndex bounds (cellAt (getCoord bounds p) d (j - 1))])
          hd hj1' (by omega) rfl henter hnotend hfuel'
        obtain ⟨h', t', rfl⟩ := List.exists_cons_of_ne_nil hne'
        have hn2_end : getIndex bounds (cellAt (getCoord bounds p) d (j - 1)) ≠ endIdx :=
          hnotend (j - 1) hj1' (by omega)
        refine ⟨getIndex bounds (cellAt (getCoord bounds p) d (j - 1)) :: h' :: t',
          ?_, by simp, ?_, ?_, ?_⟩
        · rw [heq']
          simp
        · rw [List.getLast?_cons_cons]
          exact hlast'
        · intro c hc
          rw [List.dropLast_cons₂] at hc
          rcases List.mem_cons.mp hc with hc | hc
          · subst hc
            refine ⟨?_, hns, hn2_end⟩
            rw [hn2_coord]
            exact hcell_j1
          · exact hcells' c hc
        · exact List.chain'_cons.mpr ⟨hstep_in2, hchain'⟩

/-- Number of closed in-bounds cells: the termination measure of the main
loop. -/
def closedCount (bounds : Coord) (cl : Int → Bool) : Nat :=
  ((Finset.range (bounds.x * bounds.y).toNat).filter (fun k : Nat => cl (k : Int) = true)).card

theorem closedCount_le (bounds : Coord) (cl : Int → Bool) :
    closedCount bounds cl ≤ (bounds.x * bounds.y).toNat := by
  calc closedCount bounds cl ≤ (Finset.range (bounds.x * bounds.y).toNat).card :=
        Finset.card_filter_le _ _
  _ = _ := Finset.card_range _

theorem closedCount_upd (bounds : Coord) (cl : Int → Bool) (node : Int)
    (h0 : 0 ≤ node) (h1 : node < bounds.x * bounds.y) (hcl : cl node = false) :
    closedCount bounds (upd cl node true) = closedCount bounds cl + 1 := by
  unfold closedCount
  have hcast : ((node.toNat : Nat) : Int) = node := by omega
  have hset : (Finset.range (bounds.x * bounds.y).toNat).filter
      (fun k : Nat => upd cl node true (k : Int) = true) =
      Insert.insert node.toNat ((Finset.range (bounds.x * bounds.y).toNat).filter
        (fun k : Nat => cl (k : Int) = true)) := by
    ext k
    simp only [Finset.mem_filter, Finset.mem_insert, Finset.mem_range]
    constructor
    · rintro ⟨hk, hp⟩
      by_cases hkn : (k : Int) = node
      · left
        omega
      · right
        rw [upd_ne _ _ _ hkn] at hp
        exact ⟨hk, hp⟩
    · rintro (rfl | ⟨hk, hp⟩)
      · refine ⟨by omega, ?_⟩
        rw [hcast, upd_self]
      · refine ⟨hk, ?_⟩
        by_cases hkn : (k : Int) = node
        · rw [hkn, upd_self]
        · rw [upd_ne _ _ _ hkn]
          exact hp
  rw [hset, Finset.card_insert_of_not_mem]
  intro hmem2
  rw [Finset.mem_filter] at hmem2
  rw [hcast] at hmem2
  rw [hmem2.2] at hcl
  exact Bool.noConfusion hcl

theorem recordSolution_self (bounds : Coord) (cf : Int → Int) (fuel : Nat) (s : Int) :
    recordSolution bounds cf (fuel + 1) s s = some [] := by
  unfold recordSolution
  simp only [recordLoop]
  rw [nextNode_self]
  simp

theorem recordLoop_succ (bounds : Coord) (cf : Int → Int) (begin_ : Int) (fuel : Nat)
    (target i : Int) (acc : List Int) :
    recordLoop bounds cf begin_ (fuel + 1) target i acc =
      if (nextNodeInSolution bounds cf target i).1 = begin_ then
        some (acc ++ [(nextNodeInSolution bounds cf target i).1])
      else recordLoop bounds cf begin_ fuel (nextNodeInSolution bounds cf target i).2
        (nextNodeInSolution bounds cf target i).1
        (acc ++ [(nextNodeInSolution bounds cf target i).1]) := rfl

theorem dropLast_append_of_getLast {α : Type} {l : List α} {a : α}
    (h : l.getLast? = some a) : l.dropLast ++ [a] = l := by
  induction l with
  | nil => simp at h
  | cons x l IH =>
    cases l with
    | nil =>
      simp at h
      subst h
      simp
    | cons y t =>
      rw [List.getLast?_cons_cons] at h
      rw [List.dropLast_cons₂, List.cons_append, IH h]

/-- The main loop of `astar_compute` always returns (given loop fuel
exceeding the number of never-yet-closed cells), and any returned path is
goal-headed, walkable, free of the start node and of repeat goal visits,
and 8-adjacent step by step down to the start node. -/
theorem astarLoop_some (grid : Grid) (bounds : Coord) (startIdx endIdx : Int)
    (hstart_b : 0 ≤ startIdx ∧ startIdx < bounds.x * bounds.y)
    (hstart_cont : contained bounds (getCoord bounds startIdx) = true) :
    ∀ (fuel : Nat) (st : SearchState),
      LoopInv grid bounds startIdx endIdx st →
      (bounds.x * bounds.y).toNat < fuel + closedCount bounds st.closed →
      ∃ r, astarLoop grid bounds startIdx endIdx (getCoord bounds endIdx)
          ((bounds.x * bounds.y).toNat * (bounds.x.toNat + bounds.y.toNat) + 2) fuel st =
          some r ∧
        ∀ p len, r = (some p, len) →
          len = (p.length : Int) ∧
          (∀ c ∈ p, isEnterable grid bounds (getCoord bounds c) = true) ∧
          (∀ c ∈ p.tail, c ≠ endIdx) ∧
          startIdx ∉ p ∧
          List.Chain' (fun a b => stepOK bounds a b = true) (p ++ [startIdx]) ∧
          (startIdx ≠ endIdx → p.head? = some endIdx) := by
  intro fuel
  induction fuel with
  | zero =>
    intro st hinv hcount
    have := closedCount_le bounds st.closed
    omega
  | succ f IH =>
    intro st hinv hcount
    rcases hfm : findMin st.openQ with _ | e
    · have hcomp : astarStep grid bounds startIdx endIdx (getCoord bounds endIdx)
          ((bounds.x * bounds.y).toNat * (bounds.x.toNat + bounds.y.toNat) + 2) st =
          Sum.inl (some (none, -1)) := by
        simp only [astarStep]
        rw [hfm]
      refine ⟨(none, -1), ?_, ?_⟩
      · simp only [astarLoop]
        rw [hcomp]
      · intro p len h
        simp at h
    · by_cases hgoal : getCoord bounds e.1 = getCoord bounds endIdx
      · have he : e ∈ st.openQ := findMin_mem hfm
        have heid : e.1 ∈ st.openQ.map Prod.fst := List.mem_map.mpr ⟨e, he, rfl⟩
        have hnode_end : e.1 = endIdx := by
          rw [← getIndex_getCoord bounds e.1, hgoal, getIndex_getCoord]
        by_cases hse : e.1 = startIdx
        · have hrs : recordSolution bounds st.cameFrom
              ((bounds.x * bounds.y).toNat * (bounds.x.toNat + bounds.y.toNat) + 2)
              startIdx e.1 = some [] := by
            rw [hse]
            exact recordSolution_self bounds st.cameFrom
              ((bounds.x * bounds.y).toNat * (bounds.x.toNat + bounds.y.toNat) + 1) startIdx
          have hcomp : astarStep grid bounds startIdx endIdx (getCoord bounds endIdx)
              ((bounds.x * bounds.y).toNat * (bounds.x.toNat + bounds.y.toNat) + 2) st =
              Sum.inl (some (some [], (([] : List Int).length : Int))) := by
            simp only [astarStep]
            rw [hfm]
            simp only []
            rw [if_pos hgoal, hrs]
          refine ⟨(some [], (([] : List Int).length : Int)), ?_, ?_⟩
          · simp only [astarLoop]
            rw [hcomp]
          · intro p len h
            rw [Prod.mk.injEq] at h
            obtain ⟨h1, h2⟩ := h
            rw [Option.some.injEq] at h1
            subst h1
            refine ⟨h2.symm, by simp, by simp, by simp, by simp, ?_⟩
            intro hne
            exact absurd (hse ▸ hnode_end) hne
        · obtain ⟨l, hl⟩ := hinv.chains e.1 (Or.inr heid)
          obtain ⟨l', hleq, hch', hclq, hray, -⟩ := chain_cons_inv hl hse
          obtain ⟨d, hd0, hd8, L, hL, hcoordn, henter, hnotend⟩ := hray
          have hd : dirDelta d ≠ (0, 0) := dirDelta_ne_zero hd0
          have hWH : L ≤ bounds.x.toNat + bounds.y.toNat := by
            refine @ray_len_bound bounds (getCoord bounds (st.cameFrom e.1)) d L hd hL ?_ ?_
            · have hw := henter 1 le_rfl hL
              simp only [isEnterable, Bool.and_eq_true] at hw
              exact hw.1
            · have hw := henter L hL le_rfl
              simp only [isEnterable, Bool.and_eq_true] at hw
              exact hw.1
          have hlen := chain_length_le hstart_b hl
          have hsize1 : 1 ≤ (bounds.x * bounds.y).toNat := by
            have := (hinv.open_mem e he).1
            omega
          have hlen' : l'.length + 1 ≤ (bounds.x * bounds.y).toNat := by
            subst hleq
            simp only [List.length_cons] at hlen
            omega
          have hfuelW : L + (bounds.x.toNat + bounds.y.toNat) * l'.length ≤
              (bounds.x * bounds.y).toNat * (bounds.x.toNat + bounds.y.toNat) + 1 := by
            obtain ⟨k, hk⟩ : ∃ k, (bounds.x * bounds.y).toNat = k + 1 :=
              ⟨(bounds.x * bounds.y).toNat - 1, by omega⟩
            have hlk : l'.length ≤ k := by omega
            have h2 : (bounds.x.toNat + bounds.y.toNat) * l'.length ≤
                (bounds.x.toNat + bounds.y.toNat) * k :=
              Nat.mul_le_mul_left _ hlk
            have h3 : (bounds.x * bounds.y).toNat * (bounds.x.toNat + bounds.y.toNat) =
                (bounds.x.toNat + bounds.y.toNat) * k + (bounds.x.toNat + bounds.y.toNat) := by
              rw [hk]
              ring
            omega
          have hi_eq : e.1 = getIndex bounds (cellAt (getCoord bounds (st.cameFrom e.1)) d L) := by
            rw [← hcoordn, getIndex_getCoord]
          have hcl_end : ∀ m, st.closed m = true →
              getCoord bounds m ≠ getCoord bounds endIdx :=
            fun m hm => (hinv.closed_mem m hm).2
          obtain ⟨out, heq, hne, hlast, hcells, hchain⟩ := walk_chain hcl_end hstart_cont
            ((bounds.x * bounds.y).toNat * (bounds.x.toNat + bounds.y.toNat) + 1)
            (st.cameFrom e.1) l' hch' (Or.inr hclq) d L L e.1 [e.1] hd hL le_rfl hi_eq
            henter hnotend hfuelW
          obtain ⟨h', t', houtc⟩ := List.exists_cons_of_ne_nil hne
          have hrl : recordLoop bounds st.cameFrom startIdx
              ((bounds.x * bounds.y).toNat * (bounds.x.toNat + bounds.y.toNat) + 2)
              e.1 e.1 [] = some (e.1 :: out) := by
            rw [show (bounds.x * bounds.y).toNat * (bounds.x.toNat + bounds.y.toNat) + 2 =
              ((bounds.x * bounds.y).toNat * (bounds.x.toNat + bounds.y.toNat) + 1) + 1
              from rfl]
            rw [recordLoop_succ, nextNode_self]
            simp only [List.nil_append]
            rw [if_neg hse]
            rw [heq]
            simp
          have hrs : recordSolution bounds st.cameFrom
              ((bounds.x * bounds.y).toNat * (bounds.x.toNat + bounds.y.toNat) + 2)
              startIdx e.1 = some (e.1 :: out.dropLast) := by
            unfold recordSolution
            rw [hrl]
            subst houtc
            simp [List.dropLast_cons₂]
          have hcomp : astarStep grid bounds startIdx endIdx (getCoord bounds endIdx)
              ((bounds.x * bounds.y).toNat * (bounds.x.toNat + bounds.y.toNat) + 2) st =
              Sum.inl (some (some (e.1 :: out.dropLast),
                ((e.1 :: out.dropLast).length : Int))) := by
            simp only [astarStep]
            rw [hfm]
            simp only []
            rw [if_pos hgoal, hrs]
          refine ⟨(some (e.1 :: out.dropLast), ((e.1 :: out.dropLast).length : Int)), ?_, ?_⟩
          · simp only [astarLoop]
            rw [hcomp]
          · intro p len h
            rw [Prod.mk.injEq] at h
            obtain ⟨h1, h2⟩ := h
            rw [Option.some.injEq] at h1
            subst h1
            refine ⟨h2.symm, ?_, ?_, ?_, ?_, ?_⟩
            · intro c hc
              rcases List.mem_cons.mp hc with hc | hc
              · subst hc
                exact chain_endpoint_walkable hl hse
              · exact (hcells c hc).1
            · intro c hc
              rw [List.tail_cons] at hc
              exact (hcells c hc).2.2
            · intro hc
              rcases List.mem_cons.mp hc with hc | hc
              · exact hse hc.symm
              · exact (hcells _ hc).2.1 rfl
            · have hfull : (e.1 :: out.dropLast) ++ [startIdx] = e.1 :: out := by
                rw [List.cons_append]
                congr 1
                exact dropLast_append_of_getLast hlast
              rw [hfull]
              exact hchain
            · intro _
              simp [hnode_end]
      · have hcomp : astarStep grid bounds startIdx endIdx (getCoord bounds endIdx)
            ((bounds.x * bounds.y).toNat * (bounds.x.toNat + bounds.y.toNat) + 2) st =
            Sum.inr (dirRange.foldl (innerBody grid bounds endIdx (getCoord bounds endIdx)
              e.1 (getCoord bounds e.1)
              (directionWeCameFrom bounds e.1 (st.cameFrom e.1)))
              { openQ := deleteMin st.openQ, closed := upd st.closed e.1 true,
                gScores := st.gScores, cameFrom := st.cameFrom }) := by
          simp only [astarStep]
          rw [hfm]
          simp only []
          rw [if_neg hgoal]
        obtain ⟨hinv2, node, hncl, hcl2, hnid⟩ := astarStep_inv grid bounds startIdx endIdx
          ((bounds.x * bounds.y).toNat * (bounds.x.toNat + bounds.y.toNat) + 2) st _
          hinv hcomp
        obtain ⟨pri, hpr⟩ := mem_map_fst hnid
        have hnb := (hinv.open_mem _ hpr).1
        have hcnt2 : closedCount bounds (dirRange.foldl (innerBody grid bounds endIdx
            (getCoord bounds endIdx) e.1 (getCoord bounds e.1)
            (directionWeCameFrom bounds e.1 (st.cameFrom e.1)))
            { openQ := deleteMin st.openQ, closed := upd st.closed e.1 true,
              gScores := st.gScores, cameFrom := st.cameFrom }).closed =
            closedCount bounds st.closed + 1 := by
          rw [hcl2]
          exact closedCount_upd bounds st.closed node hnb.1 hnb.2 hncl
        obtain ⟨r, hr, hprops⟩ := IH _ hinv2 (by rw [hcnt2]; omega)
        refine ⟨r, ?_, hprops⟩
        simp only [astarLoop]
        rw [hcomp]
        exact hr

/-- Every query returns, and a returned path is goal-headed, walkable,
start-free, goal-once and 8-adjacent (including the final hop to the
start cell). -/
theorem astar_compute_spec (grid : Grid) (W H s e : Int) :
    ∃ r, astar_compute grid W H s e = some r ∧
      ∀ p len, r = (some p, len) →
        len = (p.length : Int) ∧
        (∀ c ∈ p, isEnterable grid ⟨W, H⟩ (getCoord ⟨W, H⟩ c) = true) ∧
        (∀ c ∈ p.tail, c ≠ e) ∧
        s ∉ p ∧
        List.Chain' (fun a b => stepOK ⟨W, H⟩ a b = true) (p ++ [s]) ∧
        (s ≠ e → p.head? = some e) := by
  simp only [astar_compute]
  split
  · refine ⟨(none, -1), rfl, ?_⟩
    intro p len hlen
    simp at hlen
  · split
    · refine ⟨(none, -1), rfl, ?_⟩
      intro p len hlen
      simp at hlen
    · rename_i h1 h2
      push_neg at h1 h2
      obtain ⟨h1a, h1b, h1c, h1d⟩ := h1
      obtain ⟨h2a, h2b⟩ := h2
      have hsb : 0 ≤ s ∧ s < (⟨W, H⟩ : Coord).x * (⟨W, H⟩ : Coord).y := ⟨h1b, h1a⟩
      have hinv0 : LoopInv grid ⟨W, H⟩ s e
          { openQ := insert createQueue s
              (estimateDistance (getCoord ⟨W, H⟩ s) (getCoord ⟨W, H⟩ e)),
            closed := fun _ => false,
            gScores := fun _ => Rt2.zero,
            cameFrom := fun _ => -1 } := by
        refine ⟨?_, ?_, ?_, rfl, ?_, ?_⟩
        · rw [map_fst_insert]
          simp [createQueue]
        · intro pr hpr
          have : pr ∈ ([] : Queue) ++ [(s, estimateDistance (getCoord ⟨W, H⟩ s)
              (getCoord ⟨W, H⟩ e))] := hpr
          simp at this
          subst this
          exact ⟨hsb, rfl⟩
        · intro m hm
          exact Bool.noConfusion hm
        · right
          refine ⟨?_, fun m => rfl⟩
          rw [map_fst_insert]
          simp [createQueue]
        · intro m hm
          rcases hm with hm | hm
          · exact Bool.noConfusion hm
          · rw [map_fst_insert] at hm
            simp [createQueue] at hm
            subst hm
            exact ⟨[m], Chain.base⟩
      have hcc : closedCount ⟨W, H⟩ (fun _ => false) = 0 := by
        simp [closedCount]
      obtain ⟨r, hr, hp⟩ := astarLoop_some grid ⟨W, H⟩ s e hsb h2a
        (((⟨W, H⟩ : Coord).x * (⟨W, H⟩ : Coord).y).toNat + 1) _ hinv0
        (by rw [hcc]; omega)
      exact ⟨r, hr, hp⟩

/-- **C4** (amended): when `start ≠ goal`, a returned path has `goal` as
its head, contains `goal` exactly once, and never contains `start`. -/
theorem c4_goal_first_once (grid : Grid) (W H s e : Int) (p : List Int) (len : Int)
    (hne : s ≠ e)
    (hrun : astar_compute grid W H s e = some (some p, len)) :
    p.head? = some e ∧ p.count e = 1 ∧ s ∉ p := by
  obtain ⟨r, hr, hp⟩ := astar_compute_spec grid W H s e
  have hre : r = (some p, len) := Option.some.inj (hr.symm.trans hrun)
  obtain ⟨-, hwalk, htail, hnotin, -, hhead⟩ := hp p len hre
  have hh := hhead hne
  refine ⟨hh, ?_, hnotin⟩
  rcases p with _ | ⟨a, t⟩
  · simp at hh
  · rw [List.head?_cons, Option.some.injEq] at hh
    subst hh
    simp only [List.tail_cons] at htail
    have ht0 : t.count a = 0 := by
      rw [List.count_eq_zero]
      intro hmem
      exact htail a hmem rfl
    simp [List.count_cons, ht0]

/-- **C5** (amended): consecutive cells of a returned path are distinct
8-neighbours, and every cell of the path is walkable (the start cell,
excluded from the path, need not be). -/
theorem c5_path_cells (grid : Grid) (W H s e : Int) (p : List Int) (len : Int)
    (hrun : astar_compute grid W H s e = some (some p, len)) :
    List.Chain' (fun a b => stepOK ⟨W, H⟩ a b = true) p ∧
    (∀ c ∈ p, isEnterable grid ⟨W, H⟩ (getCoord ⟨W, H⟩ c) = true) := by
  obtain ⟨r, hr, hp⟩ := astar_compute_spec grid W H s e
  have hre : r = (some p, len) := Option.some.inj (hr.symm.trans hrun)
  obtain ⟨-, hwalk, -, -, hchain, -⟩ := hp p len hre
  exact ⟨ List.Chain'.prefix hchain (List.prefix_append _ _), hwalk⟩

/-- **C9**: `astar_compute` terminates on every input: its embedding, run
with the fuel the source loop structure needs, never exhausts that fuel. -/
theorem c9_termination (grid : Grid) (W H s e : Int) :
    astar_compute grid W H s e ≠ none := by
  obtain ⟨r, hr, -⟩ := astar_compute_spec grid W H s e
  rw [hr]
  simp

/-- The fully open 3×3 grid, for the concrete witness runs. -/
def gridOpen3 : Grid :=
  gridOfList [true, true, true, true, true, true, true, true, true]

theorem c4_goal_first_once_witness :
    ([8, 4] : List Int).head? = some 8 ∧ ([8, 4] : List Int).count 8 = 1 ∧
      (0 : Int) ∉ ([8, 4] : List Int) :=
  c4_goal_first_once gridOpen3 3 3 0 8 [8, 4] 2 (by decide)
    (by set_option maxRecDepth 4000 in decide)

theorem c5_path_cells_witness :
    List.Chain' (fun a b => stepOK ⟨3, 3⟩ a b = true) ([8, 4] : List Int) ∧
      (∀ c ∈ ([8, 4] : List Int),
        isEnterable gridOpen3 ⟨3, 3⟩ (getCoord ⟨3, 3⟩ c) = true) :=
  c5_path_cells gridOpen3 3 3 0 8 [8, 4] 2
    (by set_option maxRecDepth 4000 in decide)

end AStarJPS
